import Mathlib

/-!
Verification development for the renpy-shader skeletal animation engine.

The Python sources under `ShaderDemo/game/shader/` are shallowly embedded:
floats are modelled as `ℚ`, Python dicts as insertion-ordered association
lists, and the object identity / aliasing of `KeyFrame` objects (crucial for
`Frame.copy`'s shallow dictionary copy in `skinnedanimation.py`) is modelled
with an explicit heap of cells addressed by natural-number references.
Fallible operations (Python exceptions: `KeyError`, `ValueError`,
`IndexError`, reads of unset attributes) return `Option`/`Except`.
-/

namespace RenpyShader

/-! ## skinnedanimation.py : value types -/

/-- Coordinate triple standing for `euclid.Vector3` (x, y, z). -/
abbrev Vec3 := ℚ × ℚ × ℚ

/-- Snapshot of the five animated bone fields, the payload of a filled
`KeyFrame` (skinnedanimation.py, class `KeyFrame`), and likewise the pose
part of a bone that `copyKeyData` reads and writes. -/
structure KeyData where
  pivot : ℚ × ℚ
  rotation : Vec3
  scale : Vec3
  zOrder : ℤ
  visible : Bool
deriving DecidableEq

/-- Heap reference standing for the identity of one Python `KeyFrame` object. -/
abbrev Ref := ℕ

/-- One animation frame: a dict from bone name to its `KeyFrame` object
(skinnedanimation.py, class `Frame`). `Frame.copy` copies only this dict,
so copies share the referenced `KeyFrame` cells. -/
structure Frame where
  keys : List (String × Ref)
deriving DecidableEq

/-- Arena of `KeyFrame` objects. A cell is `none` while the freshly created
`KeyFrame` still has all attributes set to `None`, and `some d` after
`copyKeyData` filled it. -/
structure Heap where
  cells : List (Option KeyData)
deriving DecidableEq

/-- The mutable state of a `SkinnedAnimation`: its frame list plus the heap
holding every `KeyFrame` object the frames reference. -/
structure AnimState where
  frames : List Frame
  heap : Heap
deriving DecidableEq

def Frame.find (f : Frame) (name : String) : Option Ref :=
  (f.keys.find? (fun kv => kv.1 == name)).map (·.2)

def Frame.hasKey (f : Frame) (name : String) : Bool :=
  (f.find name).isSome

/-- Python `del frame.keys[name]` (dict keys are unique, so filtering the
single matching entry is exact). -/
def Frame.eraseKey (f : Frame) (name : String) : Frame :=
  ⟨f.keys.filter (fun kv => kv.1 != name)⟩

/-- Dereference a `KeyFrame` object: `none` when its attributes are unset. -/
def Heap.read (h : Heap) (r : Ref) : Option KeyData :=
  (h.cells.get? r).getD none

/-- Overwrite the contents of the `KeyFrame` object at `r`; this is
`copyKeyData(source, target)` with `target` a heap cell — the copied
tuples/vectors are value-equal to the source's, so the cell receives the
source's `KeyData` verbatim. -/
def Heap.write (h : Heap) (r : Ref) (d : KeyData) : Heap :=
  ⟨h.cells.set r (some d)⟩

/-- `Frame.getBoneKey`: return the existing `KeyFrame` for `name`, or create
a fresh one (a new heap cell with unset attributes) and insert it. -/
def Frame.getBoneKey (f : Frame) (h : Heap) (name : String) : Ref × Frame × Heap :=
  match f.find name with
  | some r => (r, f, h)
  | none => (h.cells.length, ⟨f.keys ++ [(name, h.cells.length)]⟩, ⟨h.cells ++ [none]⟩)

/-- Modelled from the spec: `utils.interpolate2d` (utils.py is not under
src/); linear interpolation of 2D points componentwise by weight. -/
def interpolate2d (a b : ℚ × ℚ) (w : ℚ) : ℚ × ℚ :=
  (a.1 + (b.1 - a.1) * w, a.2 + (b.2 - a.2) * w)

/-- Modelled from the spec: `utils.interpolate3d` (utils.py is not under
src/); linear interpolation of 3D vectors componentwise by weight. -/
def interpolate3d (a b : Vec3) (w : ℚ) : Vec3 :=
  (a.1 + (b.1 - a.1) * w, a.2.1 + (b.2.1 - a.2.1) * w, a.2.2 + (b.2.2 - a.2.2) * w)

/-- `interpolateKeyData(a, b, weight)`: pivot/rotation/scale are interpolated,
zOrder/visible are copied from `a`. -/
def interpolateKeyData (a b : KeyData) (w : ℚ) : KeyData :=
  { pivot := interpolate2d a.pivot b.pivot w
    rotation := interpolate3d a.rotation b.rotation w
    scale := interpolate3d a.scale b.scale w
    zOrder := a.zOrder
    visible := a.visible }

/-- `keyDataChanged(a, b)` compares the two `KeyFrame`s field by field; on
the reachable states (attributes either all unset or all filled by
`copyKeyData`) this coincides with equality of the cell contents. -/
def keyDataChanged (a b : Option KeyData) : Bool :=
  a != b

/-! ## skinnedanimation.py : SkinnedAnimation operations -/

/-- `SkinnedAnimation.getBoneKeyFrames(name)`: the sorted list of frame
indices carrying a key for `name`. -/
def getBoneKeyFrames (frames : List Frame) (name : String) : List ℕ :=
  (List.range frames.length).filter (fun i => ((frames.get? i).map (·.hasKey name)).getD false)

/-- `SkinnedAnimation.getKeyBones()`: every bone name keyed in some frame.
CPython iterates the collected `set` in unspecified order; this model fixes
first-occurrence order, and every property proved below reads the result
through per-name views that do not depend on that order. -/
def getKeyBones (frames : List Frame) : List String :=
  frames.foldl (fun acc f => acc ++ (f.keys.map Prod.fst).filter (fun n => !(acc.contains n))) []

/-- `SkinnedAnimation.findKeyFrameRange(frames, frameNumber, boneName)`:
nearest keyed frame at or before `frameNumber`, and at or after it.
(For `frameNumber ≥ len(frames)` CPython's backward scan would raise
`IndexError`; the model treats out-of-range frames as unkeyed — every use
in the claims stays in range.) -/
def findKeyFrameRange (frames : List Frame) (frameNumber : ℕ) (name : String) :
    Option ℕ × Option ℕ :=
  ( ((List.range (frameNumber + 1)).reverse).find?
      (fun i => ((frames.get? i).map (·.hasKey name)).getD false)
  , ((List.range frames.length).drop frameNumber).find?
      (fun i => ((frames.get? i).map (·.hasKey name)).getD false) )

/-- The ping-pong walk of `SkinnedAnimation.bakeFrames` for one bone: while
`i < len(frames)` copy the key content at `boneFrames[current]` into
`baked[i].getBoneKey(name)`, reverse `current`'s direction at the ends, and
advance `i` by the jump to the next key. Sources are read through the live
heap, so writes through shared references are observed. The fuel
(`frames.length + 1` at the call site) strictly bounds the iteration count
since every jump between distinct key indices is positive. -/
def bakeLoop (frames : List Frame) (name : String) (bf : List ℕ) :
    ℕ → List Frame → Heap → ℤ → ℤ → ℕ → Option (List Frame × Heap × ℕ)
  | 0, _, _, _, _, _ => none
  | fuel + 1, baked, heap, current, step, i =>
    if i < frames.length then do
      let index ← bf.get? current.toNat
      let srcRef ← (frames.get? index).bind (·.find name)
      let d ← heap.read srcRef
      let bframe ← baked.get? i
      let (tref, bframe', heap') := bframe.getBoneKey heap name
      let heap2 := heap'.write tref d
      let baked' := baked.set i bframe'
      let c1 := current + step
      let cs :=
        if c1 = -1 then ((1 : ℤ), (1 : ℤ))
        else if c1 = (bf.length : ℤ) then ((bf.length : ℤ) - 2, (-1 : ℤ))
        else (c1, step)
      let index2 ← bf.get? cs.1.toNat
      let jump := ((index2 : ℤ) - (index : ℤ)).natAbs
      bakeLoop frames name bf fuel baked' heap2 cs.1 cs.2 (i + jump)
    else
      some (baked, heap, i)

/-- One bone's contribution to `bakeFrames`: run the ping-pong walk when the
bone has at least two keys, then, when the walk overran the frame list
(`missing > 0`), copy the key bracketing the bone's first keyed frame into
`baked[len(baked) - 1].getBoneKey(name)` to smooth the wrap back to frame 0. -/
def bakeBone (frames : List Frame) (name : String) (acc : List Frame × Heap) :
    Option (List Frame × Heap) :=
  let bf := getBoneKeyFrames frames name
  if 1 < bf.length then do
    let start ← bf.get? (bf.length - 1)
    let (baked', heap', i) ←
      bakeLoop frames name bf (frames.length + 1) acc.1 acc.2 ((bf.length : ℤ) - 1) (-1) start
    if frames.length < i then
      match (findKeyFrameRange frames ((bf.get? 0).getD 0) name).2 with
      | some e => do
          let srcRef ← (frames.get? e).bind (·.find name)
          let d ← heap'.read srcRef
          let last ← baked'.get? (baked'.length - 1)
          let t := last.getBoneKey heap' name
          some (baked'.set (baked'.length - 1) t.2.1, t.2.2.write t.1 d)
      | none => some (baked', heap')
    else
      some (baked', heap')
  else
    some acc

/-- `SkinnedAnimation.bakeFrames()`: shallow-copy every frame (sharing the
`KeyFrame` cells), then densify each keyed bone's column. Returns the baked
frame list together with the animation state as it is left afterwards — the
frame list of the animation itself is untouched but the shared heap may have
been written through. -/
def bakeFrames (st : AnimState) : Option (List Frame × AnimState) := do
  let r ← (getKeyBones st.frames).foldlM (fun acc name => bakeBone st.frames name acc)
    (st.frames, st.heap)
  some (r.1, ⟨st.frames, r.2⟩)

/-- The per-bone body of `SkinnedAnimation.apply`: locate the bracketing keys
of `frameNumber` in the baked frames; if both exist and are the same
`KeyFrame` object, copy it verbatim onto the bone, otherwise interpolate
with weight `(frameNumber - start) / (end - start)`. The comparison
`startKey == endKey` in the source is CPython object identity (class
`KeyFrame` defines no `__eq__`), hence reference equality here. -/
def applyBone (baked : List Frame) (heap : Heap) (frameNumber : ℕ) (name : String)
    (bone : KeyData) : Option KeyData :=
  match findKeyFrameRange baked frameNumber name with
  | (some s, some e) =>
    match (baked.get? s).bind (·.find name), (baked.get? e).bind (·.find name) with
    | some rs, some re =>
      if rs = re then heap.read rs
      else do
        let ds ← heap.read rs
        let de ← heap.read re
        some (interpolateKeyData ds de (((frameNumber : ℚ) - (s : ℚ)) / ((e : ℚ) - (s : ℚ))))
    | _, _ => none
  | _ => some bone

/-- Distinct frames of one bone's column hold distinct `KeyFrame` objects.
This holds of every reachable frame list (keys are created per frame by
`getBoneKey` and shared only between an animation and its shallow bake), and
it is what turns the source's `startKey == endKey` object-identity test into
the index test `start == end`. -/
def columnInjective (baked : List Frame) (name : String) : Bool :=
  (List.range baked.length).all fun i =>
    (List.range baked.length).all fun j =>
      i == j || !((baked.get? i).bind (·.find name)).isSome ||
        ((baked.get? i).bind (·.find name) != (baked.get? j).bind (·.find name))

/-- `SkinnedAnimation.apply(frameNumber, bones)`: bake (every invocation),
then update every bone's pose from its bracketing baked keys. Returns the
new poses together with the animation state `bakeFrames` left behind. -/
def SkinnedAnimation.apply (st : AnimState) (frameNumber : ℕ)
    (bones : List (String × KeyData)) : Option (List (String × KeyData) × AnimState) := do
  let br ← bakeFrames st
  let bones' ← bones.mapM (fun nb =>
    (applyBone br.1 br.2.heap frameNumber nb.1 nb.2).map (fun d => (nb.1, d)))
  some (bones', br.2)

/-- Content of the `KeyFrame` object stored for `name` at frame `i`
(`none` when the frame has no such key or the key is unfilled). -/
def cellAt (st : AnimState) (i : ℕ) (name : String) : Option KeyData :=
  match (st.frames.get? i).bind (·.find name) with
  | some r => st.heap.read r
  | none => none

/-- Frame `i` carries a key for `name`. -/
def hasKeyAt (st : AnimState) (i : ℕ) (name : String) : Bool :=
  ((st.frames.get? i).map (·.hasKey name)).getD false

/-- Two animation states agree on bone `name`'s column: same frame count,
same heap, and the same `KeyFrame` reference (or absence) for `name` in
every frame. Cleaning up a different bone's keys preserves this view. -/
def ColEq (st st' : AnimState) (name : String) : Prop :=
  st.frames.length = st'.frames.length ∧ st.heap = st'.heap ∧
    ∀ i, (st.frames.get? i).map (·.find name) = (st'.frames.get? i).map (·.find name)

/-! ## skinnedanimation.py : cleanupDuplicateKeys -/

/-- Inner `while i2 < len(keys)` loop of `cleanupDuplicateKeys`: scan the key
indices after `base` while their content is unchanged from `base`'s; within
the run, record `base` when it is the just-edited frame, else the scanned
index when it is. -/
def innerScan (st : AnimState) (name : String) (fn : ℕ) (base : ℕ) :
    List ℕ → List ℕ
  | [] => []
  | j :: tl =>
    if keyDataChanged (cellAt st base name) (cellAt st j name) then []
    else
      (if base = fn then [base] else if j = fn then [j] else []) ++
        innerScan st name fn base tl

/-- Outer `while i < len(keys)` loop of `cleanupDuplicateKeys`: run the inner
scan from every keyed index. -/
def outerScan (st : AnimState) (name : String) (fn : ℕ) : List ℕ → List ℕ
  | [] => []
  | b :: tl => innerScan st name fn b tl ++ outerScan st name fn tl

/-- Python `del self.frames[index].keys[name]`. -/
def eraseFrameKey (frames : List Frame) (i : ℕ) (name : String) : List Frame :=
  match frames.get? i with
  | some f => frames.set i (f.eraseKey name)
  | none => frames

/-- `cleanupDuplicateKeys`' body for one bone: collect the duplicate set and
delete every collected index greater than 0 (frame 0 is protected). -/
def cleanupBone (st : AnimState) (name : String) (fn : ℕ) : AnimState :=
  let dups := (outerScan st name fn (getBoneKeyFrames st.frames name)).dedup
  ⟨dups.foldl (fun fs idx => if 0 < idx then eraseFrameKey fs idx name else fs) st.frames,
    st.heap⟩

/-- `SkinnedAnimation.cleanupDuplicateKeys(bones, frameNumber)`: the per-bone
cleanup over every bone of the rig (dict iteration; columns of distinct
names are independent). -/
def cleanupDuplicateKeys (st : AnimState) (boneNames : List String) (fn : ℕ) : AnimState :=
  boneNames.foldl (fun s n => cleanupBone s n fn) st

/-! ## skinnedplayer.py : frame index derivation and track reconciliation -/

/-- Python 2 `round`: half away from zero (the host runtime of this Ren'Py
code base), composed with `int` truncation of the already-integral result. -/
def pyRound (q : ℚ) : ℤ :=
  if 0 ≤ q then ⌊q + 1 / 2⌋ else -⌊-q + 1 / 2⌋

/-- `Track.getFrameIndex(currentTime)`:
`int(round((currentTime - startTime) * speed * fps))`. -/
def getFrameIndex (startTime currentTime speed fps : ℚ) : ℤ :=
  pyRound ((currentTime - startTime) * speed * fps)

/-- `Track.getFrameIndexClamped`: `min(frameCount - 1, index)`. -/
def getFrameIndexClamped (startTime currentTime speed fps : ℚ) (frameCount : ℕ) : ℤ :=
  min ((frameCount : ℤ) - 1) (getFrameIndex startTime currentTime speed fps)

/-- `Track.getFrameIndexRepeat`: `index % frameCount`. Python `%` on a
positive modulus is Euclidean `emod`. -/
def getFrameIndexRepeat (startTime currentTime speed fps : ℚ) (frameCount : ℕ) : ℤ :=
  getFrameIndex startTime currentTime speed fps % (frameCount : ℤ)

/-- `Track.getFrameIndexCyclic`: ping-pong. `reversing = (index // frameCount) % 2`
(Python `//` on a positive divisor is Euclidean `ediv`), `realIndex = index %
frameCount`; on a reversing pass the result is `frameCount - realIndex`. -/
def getFrameIndexCyclic (startTime currentTime speed fps : ℚ) (frameCount : ℕ) : ℤ :=
  let index := getFrameIndex startTime currentTime speed fps
  let reversing := Int.ediv index (frameCount : ℤ) % 2
  let realIndex := index % (frameCount : ℤ)
  if reversing ≠ 0 then (frameCount : ℤ) - realIndex else realIndex

/-- Runtime track entry of `AnimationPlayer.data.tracks`: only the fields
`AnimationPlayer.play`'s reconciliation observes (the loaded animation and
policy flags do not affect which tracks run or their start times). -/
structure PTrack where
  name : String
  startTime : ℚ
deriving DecidableEq

def trackStart (ts : List PTrack) (n : String) : Option ℚ :=
  (ts.find? (fun t => t.name == n)).map (·.startTime)

/-- One step of `AnimationPlayer.play`'s first loop: `startAnimation(info)`
unless a track of that name is already running; `Track.__init__` records
`startTime = self.getTime()` (the current playback clock). Dict insertion
appends. -/
def startTrack (now : ℚ) (ts : List PTrack) (n : String) : List PTrack :=
  if (ts.find? (fun t => t.name == n)).isSome then ts else ts ++ [⟨n, now⟩]

/-- First phase of `AnimationPlayer.play`: start every missing track in
request order. -/
def startTracks (tracks : List PTrack) (infos : List String) (now : ℚ) : List PTrack :=
  infos.foldl (startTrack now) tracks

/-- `AnimationPlayer.play(infos)` restricted to its effect on the track
dictionary: start the missing tracks, then stop (delete) every running track
whose name is absent from the request. (`updateAnimations` in between only
mutates bone poses, never the track set.) -/
def AnimationPlayer.play (tracks : List PTrack) (infos : List String) (now : ℚ) :
    List PTrack :=
  (startTracks tracks infos now).filter (fun t => infos.contains t.name)

/-! ## skinned.py : Bone, mesh building and JSON round-trip -/

/-- `skinned.Image` (also skin.py `SkinnedImage`): an atlas crop. -/
structure SkImage where
  name : String
  x : ℤ
  y : ℤ
  width : ℤ
  height : ℤ
deriving DecidableEq

abbrev Point := ℚ × ℚ
abbrev Tri := Point × Point × Point

/-- `skinned.Bone`: all instance attributes assigned in `Bone.__init__`. -/
structure SkinnedBone where
  name : String
  children : List String
  parent : Option String
  image : Option SkImage
  pos : ℚ × ℚ
  pivot : ℚ × ℚ
  rotation : Vec3
  scale : Vec3
  zOrder : ℤ
  visible : Bool
  wireFrame : Bool
  color : ℚ × ℚ × ℚ
  vertices : Option (List ℚ)
  indices : Option (List ℕ)
  boneWeights : Option (List ℚ)
  boneIndices : Option (List ℚ)
  points : List Point
  triangles : List Tri
deriving DecidableEq

/-- `Bone.__init__(name)` defaults. -/
def mkSkinnedBone (name : String) : SkinnedBone :=
  { name := name, children := [], parent := none, image := none, pos := (0, 0)
    pivot := (0, 0), rotation := (0, 0, 0), scale := (1, 1, 1), zOrder := -1
    visible := true, wireFrame := false, color := (0, 0, 0), vertices := none
    indices := none, boneWeights := none, boneIndices := none, points := []
    triangles := [] }

/-- Body of `Bone.updateVerticesFromTriangles`'s triangle loop: for each of
the triangle's three vertices append `[x, y, x/w, y/h]` to the vertex
buffer and `len(verts)/4 - 1` to the index buffer. -/
def pushTriangle4 (w h : ℚ) (acc : List ℚ × List ℕ) (tri : Tri) : List ℚ × List ℕ :=
  [tri.1, tri.2.1, tri.2.2].foldl
    (fun (acc2 : List ℚ × List ℕ) v =>
      (acc2.1 ++ [v.1, v.2, v.1 / w, v.2 / h],
       acc2.2 ++ [(acc2.1.length + 4) / 4 - 1]))
    acc

/-- `Bone.updateVerticesFromTriangles`: flatten the triangles, then fail with
the `Invalid vertex count` `RuntimeError` unless `len(verts)/4/3 ==
len(triangles)` (Python 2 integer division). -/
def updateVerticesFromTriangles (tris : List Tri) (w h : ℚ) :
    Except String (List ℚ × List ℕ) :=
  let vi := tris.foldl (pushTriangle4 w h) ([], [])
  let vCount := vi.1.length / 4 / 3
  if vCount ≠ tris.length then Except.error "Invalid vertex count"
  else Except.ok vi

/-- Body of skin.py `SkinningBone.updateMeshFromTriangles`'s triangle loop:
positions only, two floats per vertex. -/
def pushTriangle2 (acc : List ℚ × List ℕ) (tri : Tri) : List ℚ × List ℕ :=
  [tri.1, tri.2.1, tri.2.2].foldl
    (fun (acc2 : List ℚ × List ℕ) v =>
      (acc2.1 ++ [v.1, v.2], acc2.2 ++ [(acc2.1.length + 2) / 2 - 1]))
    acc

/-- skin.py `SkinningBone.updateMeshFromTriangles`, checked by
`len(verts)/2/3 == len(triangles)`. -/
def updateMeshFromTriangles (tris : List Tri) : Except String (List ℚ × List ℕ) :=
  let vi := tris.foldl pushTriangle2 ([], [])
  let vCount := vi.1.length / 2 / 3
  if vCount ≠ tris.length then Except.error "Invalid vertex count"
  else Except.ok vi

/-! ## skinned.py : JSON document round-trip (the "full" format)

`JsonEncoder.default` serializes a `Bone` as its entire `__dict__` (every
attribute, `color`/`points`/`triangles` included), `Vector3`s as (x, y, z)
tuples and ctypes arrays as plain lists; JSON numbers are modelled exactly
by `ℚ` and the document as structured data, so "bit-for-bit" float
preservation is the identity on these values. -/

/-- The JSON object `skinned.saveToFile` writes for one bone. -/
structure RawBoneFull where
  name : String
  children : List String
  parent : Option String
  image : Option SkImage
  pos : ℚ × ℚ
  pivot : ℚ × ℚ
  rotation : Vec3
  scale : Vec3
  zOrder : ℤ
  visible : Bool
  wireFrame : Bool
  color : ℚ × ℚ × ℚ
  vertices : Option (List ℚ)
  indices : Option (List ℕ)
  boneWeights : Option (List ℚ)
  boneIndices : Option (List ℚ)
  points : List Point
  triangles : List Tri
deriving DecidableEq

structure SkinnedDoc where
  version : ℤ
  bones : List (String × RawBoneFull)
deriving DecidableEq

def saveBoneFull (b : SkinnedBone) : RawBoneFull :=
  { name := b.name, children := b.children, parent := b.parent, image := b.image
    pos := b.pos, pivot := b.pivot, rotation := b.rotation, scale := b.scale
    zOrder := b.zOrder, visible := b.visible, wireFrame := b.wireFrame
    color := b.color, vertices := b.vertices, indices := b.indices
    boneWeights := b.boneWeights, boneIndices := b.boneIndices, points := b.points
    triangles := b.triangles }

/-- `skinned.saveToFile(bones, path)` as the document it produces
(`version = VERSION = 1`). -/
def skinnedSave (bones : List (String × SkinnedBone)) : SkinnedDoc :=
  ⟨1, bones.map (fun nb => (nb.1, saveBoneFull nb.2))⟩

/-- Python truthiness of a loaded buffer: `if verts:` skips both `null` and
an empty list. -/
def truthyList {α : Type} (o : Option (List α)) : Option (List α) :=
  match o with
  | some [] => none
  | o => o

/-- The bone `skinned.loadFromFile` rebuilds from one raw object: only
`name/children/parent/image/pos/pivot/rotation/scale/zOrder/visible/
wireFrame/vertices/indices` are read; `color`, `points`, `triangles`,
`boneWeights` and `boneIndices` keep the `Bone.__init__` defaults. -/
def loadBoneFull (raw : RawBoneFull) : SkinnedBone :=
  { mkSkinnedBone raw.name with
    children := raw.children, parent := raw.parent, image := raw.image
    pos := raw.pos, pivot := raw.pivot, rotation := raw.rotation, scale := raw.scale
    zOrder := raw.zOrder, visible := raw.visible, wireFrame := raw.wireFrame
    vertices := truthyList raw.vertices, indices := truthyList raw.indices }

/-- `skinned.loadFromFile(path)`: hard version gate, then rebuild every bone,
keyed by its `name` attribute. -/
def skinnedLoad (doc : SkinnedDoc) : Except String (List (String × SkinnedBone)) :=
  if doc.version ≠ 1 then Except.error "Invalid version, should be 1"
  else Except.ok (doc.bones.map (fun nb => (nb.2.name, loadBoneFull nb.2)))

/-! ## skin.py : JSON document round-trip (the "lean" format) -/

/-- Modelled from the spec: `skinnedmesh.SkinnedMesh` (skinnedmesh.py is not
under src/); per §3 and §6 a mesh holds the vertex buffer, index buffer and
optional per-vertex bone-weight / bone-index buffers. -/
structure SkinnedMesh where
  vertices : Option (List ℚ)
  indices : Option (List ℕ)
  boneWeights : Option (List ℚ)
  boneIndices : Option (List ℚ)
deriving DecidableEq

/-- skin.py `SkinningBone`: instance attributes of `__init__`. -/
structure SkinBone where
  name : String
  children : List String
  parent : Option String
  image : Option SkImage
  pos : ℚ × ℚ
  pivot : ℚ × ℚ
  rotation : Vec3
  scale : Vec3
  zOrder : ℤ
  visible : Bool
  wireFrame : Bool
  mesh : Option SkinnedMesh
  points : List Point
  triangles : List Tri
deriving DecidableEq

def mkSkinBone (name : String) : SkinBone :=
  { name := name, children := [], parent := none, image := none, pos := (0, 0)
    pivot := (0, 0), rotation := (0, 0, 0), scale := (1, 1, 1), zOrder := -1
    visible := true, wireFrame := false, mesh := none, points := [], triangles := [] }

/-- The JSON object skin.py's encoder writes for one bone: `__dict__` minus
the `jsonIgnore` fields `points` and `triangles`. -/
structure RawSkinBone where
  name : String
  children : List String
  parent : Option String
  image : Option SkImage
  pos : ℚ × ℚ
  pivot : ℚ × ℚ
  rotation : Vec3
  scale : Vec3
  zOrder : ℤ
  visible : Bool
  wireFrame : Bool
  mesh : Option SkinnedMesh
deriving DecidableEq

structure SkinDoc where
  version : ℤ
  bones : List (String × RawSkinBone)
deriving DecidableEq

def saveSkinBone (b : SkinBone) : RawSkinBone :=
  { name := b.name, children := b.children, parent := b.parent, image := b.image
    pos := b.pos, pivot := b.pivot, rotation := b.rotation, scale := b.scale
    zOrder := b.zOrder, visible := b.visible, wireFrame := b.wireFrame
    mesh := b.mesh }

/-- skin.py `saveToFile` as the document it produces (`VERSION = 1`). -/
def skinSave (bones : List (String × SkinBone)) : SkinDoc :=
  ⟨1, bones.map (fun nb => (nb.1, saveSkinBone nb.2))⟩

/-- skin.py `_getArray`: `if data:` — `null` and `[]` both load as `None`. -/
def loadMesh (m : SkinnedMesh) : SkinnedMesh :=
  ⟨truthyList m.vertices, truthyList m.indices, truthyList m.boneWeights,
    truthyList m.boneIndices⟩

def loadSkinBone (raw : RawSkinBone) : SkinBone :=
  { mkSkinBone raw.name with
    children := raw.children, parent := raw.parent, image := raw.image
    pos := raw.pos, pivot := raw.pivot, rotation := raw.rotation, scale := raw.scale
    zOrder := raw.zOrder, visible := raw.visible, wireFrame := raw.wireFrame
    mesh := raw.mesh.map loadMesh }

/-- skin.py `loadFromFile`. -/
def skinLoad (doc : SkinDoc) : Except String (List (String × SkinBone)) :=
  if doc.version ≠ 1 then Except.error "Invalid version, should be 1"
  else Except.ok (doc.bones.map (fun nb => (nb.2.name, loadSkinBone nb.2)))

/-- What one full-format round-trip does to a bone: the listed persisted
fields survive unchanged; `color`, `points` and `triangles` revert to the
constructor defaults; the written bone-weight/bone-index buffers are dropped
by `loadFromFile`; empty vertex/index buffers load as absent. -/
def normFull (b : SkinnedBone) : SkinnedBone :=
  { b with
    color := (0, 0, 0)
    points := []
    triangles := []
    boneWeights := none
    boneIndices := none
    vertices := truthyList b.vertices
    indices := truthyList b.indices }

/-- What one lean-format round-trip does to a bone: everything survives
except the `jsonIgnore`d `points`/`triangles` (reverted to defaults) and
empty mesh buffers, which load as absent. -/
def normSkin (b : SkinBone) : SkinBone :=
  { b with points := [], triangles := [], mesh := b.mesh.map loadMesh }

/-! ## skinnededitor.py : connectBone and modal attribute edits -/

def lookupBone (bs : List (String × SkinnedBone)) (n : String) : Option SkinnedBone :=
  (bs.find? (fun kv => kv.1 == n)).map (·.2)

/-- Mutate the bone object stored under key `n` (dict values are objects;
all reads after a mutation observe it, which keyed in-place update models). -/
def modifyBone (bs : List (String × SkinnedBone)) (n : String)
    (f : SkinnedBone → SkinnedBone) : List (String × SkinnedBone) :=
  bs.map (fun kv => if kv.1 == n then (kv.1, f kv.2) else kv)

/-- `oldParent.children.remove(boneName)` as a bone update. -/
def eraseChild (c : String) (b : SkinnedBone) : SkinnedBone :=
  { b with children := b.children.erase c }

/-- `newParent.children.append(boneName)` as a bone update. -/
def appendChild (c : String) (b : SkinnedBone) : SkinnedBone :=
  { b with children := b.children ++ [c] }

/-- `poseBone.parent = newParent.name` as a bone update. -/
def setParent (p : String) (b : SkinnedBone) : SkinnedBone :=
  { b with parent := some p }

/-- `connectBone`'s old-parent determination: `oldParent` is set only when
`poseBone.parent` names a bone present in the rig (`if poseBone.parent in
bones`; `None` is never a dict key). -/
def oldParentOf (bs : List (String × SkinnedBone)) (poseBone : SkinnedBone) :
    Option String :=
  match poseBone.parent with
  | some q => if (lookupBone bs q).isSome then some q else none
  | none => none

/-- `oldParent.children.remove(boneName)` when an old parent exists: `none`
models the CPython `ValueError` raised when the entry is absent
(`list.remove` removes the first occurrence, i.e. `List.erase`). -/
def removeFromOldParent (bs : List (String × SkinnedBone)) (oldParent : Option String)
    (boneName : String) : Option (List (String × SkinnedBone)) :=
  match oldParent with
  | some q =>
    (lookupBone bs q).bind fun qb =>
      if boneName ∈ qb.children then some (modifyBone bs q (eraseChild boneName))
      else none
  | none => some bs

/-- `SkinnedEditor.connectBone(boneName, parentName)`. `none` models the
CPython exceptions (`KeyError` when either name is absent from the rig,
`ValueError` from the removal). When the bone is already among the new
parent's children the call is a no-op; otherwise it is removed from its old
parent's list, appended to the new parent's, and its parent pointer is
updated. -/
def connectBone (bs : List (String × SkinnedBone)) (boneName parentName : String) :
    Option (List (String × SkinnedBone)) := do
  let poseBone ← lookupBone bs boneName
  let newParent ← lookupBone bs parentName
  if boneName ∈ newParent.children then
    some bs
  else do
    let bs1 ← removeFromOldParent bs (oldParentOf bs poseBone) boneName
    let bs2 := modifyBone bs1 parentName (appendChild boneName)
    some (modifyBone bs2 boneName (setParent parentName))

/-- Decidable mutual consistency of a rig's children lists and parent
pointers: bone keys are unique; every child entry points back to its parent,
children lists are duplicate-free and pairwise disjoint; and every parent
pointer naming a loaded bone is matched by a child entry in that bone. -/
def consistentB (bs : List (String × SkinnedBone)) : Bool :=
  decide (bs.map Prod.fst).Nodup &&
  (bs.all fun nb =>
    (nb.2.children.all fun c =>
      match lookupBone bs c with
      | some cb => cb.parent == some nb.1
      | none => false) &&
    decide nb.2.children.Nodup) &&
  (bs.all fun nb => bs.all fun mb =>
    nb.1 == mb.1 || nb.2.children.all fun c => !(mb.2.children.contains c)) &&
  (bs.all fun nb =>
    match nb.2.parent with
    | some p =>
      match lookupBone bs p with
      | some pb => pb.children.contains nb.1
      | none => true
    | none => true)

/-- The two attribute paths the editor's modal gestures use:
`"rotation.z"` and `"scale.y"`. -/
inductive EditAttr
  | rotationZ
  | scaleY
deriving DecidableEq

def getAttr (b : SkinnedBone) : EditAttr → ℚ
  | .rotationZ => b.rotation.2.2
  | .scaleY => b.scale.2.1

def setAttr (b : SkinnedBone) : EditAttr → ℚ → SkinnedBone
  | .rotationZ, v => { b with rotation := (b.rotation.1, b.rotation.2.1, v) }
  | .scaleY, v => { b with scale := (b.scale.1, v, b.scale.2.2) }

/-- `AttributeEdit`: the modal gesture state. `math.atan2` of the pointer
relative to the transformed pivot is transcendental; the model quantifies
over the angle values the editor computes (`startAngle` at construction and
`angle` at each tick) instead of recomputing them. -/
structure AttributeEdit where
  attr : EditAttr
  original : ℚ
  value : ℚ
deriving DecidableEq

/-- `AttributeEdit.__init__`: capture the original value and offset it by the
initial pointer angle. -/
def AttributeEdit.start (b : SkinnedBone) (attr : EditAttr) (startAngle : ℚ) :
    AttributeEdit :=
  { attr := attr, original := getAttr b attr, value := getAttr b attr + startAngle }

/-- `AttributeEdit.update`: set the attribute to `value - angle` each tick. -/
def AttributeEdit.update (e : AttributeEdit) (angle : ℚ) (b : SkinnedBone) : SkinnedBone :=
  setAttr b e.attr (e.value - angle)

/-- `AttributeEdit.cancel`: restore the captured original value. -/
def AttributeEdit.cancel (e : AttributeEdit) (b : SkinnedBone) : SkinnedBone :=
  setAttr b e.attr e.original

/-- `PoseMode.newEdit`: cancel any prior uncommitted edit, then make the new
edit the single active one. -/
def newEdit (active : Option AttributeEdit) (e : AttributeEdit) (b : SkinnedBone) :
    Option AttributeEdit × SkinnedBone :=
  match active with
  | some prior => (some e, prior.cancel b)
  | none => (some e, b)

/-! ## Concrete fixtures used by the individual claims -/

/-- Key content "A": the rest pose (rotation z = 0). -/
def keyA : KeyData :=
  ⟨(0, 0), (0, 0, 0), (1, 1, 1), 0, true⟩

/-- Key content with rotation z = `r` (the stand-in for the spec's π, which
linear interpolation treats generically). -/
def keyR (r : ℚ) : KeyData :=
  ⟨(0, 0), (0, 0, r), (1, 1, 1), 0, true⟩

def emptyFrame : Frame := ⟨[]⟩

/-- An animation of `n ≥ 11` frames whose bone `"b"` is keyed at frame 0
(content `keyA`, cell 0) and frame 10 (content `keyR r`, cell 1). -/
def testAnim (n : ℕ) (r : ℚ) : AnimState :=
  ⟨(⟨[("b", 0)]⟩ : Frame) :: (List.replicate 9 emptyFrame ++
      (⟨[("b", 1)]⟩ : Frame) :: List.replicate (n - 11) emptyFrame),
    ⟨[some keyA, some (keyR r)]⟩⟩

/-- The cleanup fixture of the spec: bone `"b"` keyed at frames 0 and 3 with
identical content `keyA` (distinct `KeyFrame` objects, cells 0 and 1) and at
frame 5 with different content (cell 2). -/
def anim3 : AnimState :=
  ⟨[⟨[("b", 0)]⟩, emptyFrame, emptyFrame, ⟨[("b", 1)]⟩, emptyFrame, ⟨[("b", 2)]⟩],
    ⟨[some keyA, some keyA, some (keyR 1)]⟩⟩

/-- One-frame baked column used to witness the `applyBone` dispatch. -/
def demoBaked : List Frame := [⟨[("b", 0)]⟩]

def demoHeap : Heap := ⟨[some keyA]⟩

/-- Two-bone rig for the `connectBone` witness. -/
def demoRig : List (String × SkinnedBone) :=
  [("root", mkSkinnedBone "root"),
   ("child", mkSkinnedBone "child")]

/-- A bone whose saved bone-weight buffer exposes the full-format round-trip
divergence. -/
def demoWeightBone : SkinnedBone :=
  { mkSkinnedBone "a" with
    vertices := some [1, 2, 1 / 2, 1 / 2], indices := some [0]
    boneWeights := some [1, 0, 0, 0], boneIndices := some [3, 0, 0, 0] }

/-! # Theorems

Helper lemmas come first, then one named theorem per claim (with its
counterexample and witness where applicable). -/

/-! ## Frame index derivation (skinnedplayer.py) -/

theorem pyRound_nonneg (q : ℚ) (hq : 0 ≤ q) : 0 ≤ pyRound q := by
  rw [pyRound, if_pos hq]
  exact Int.le_floor.mpr (by push_cast; linarith)

theorem getFrameIndex_nonneg (st t sp fps : ℚ) (h1 : st ≤ t) (h2 : 0 ≤ sp)
    (h3 : 0 ≤ fps) : 0 ≤ getFrameIndex st t sp fps := by
  refine pyRound_nonneg _ ?_
  have h4 : 0 ≤ t - st := by linarith
  positivity

/-- C3: for a 10-frame animation, whenever the raw frame index
`round((now - startTime) * speed * fps)` equals 12, `getFrameIndexCyclic`
returns `10 - 2 = 8` (reversing second pass), and whenever it equals 22 it
returns `2` (forward third pass), for every startTime/time/speed/fps
combination producing those raw indices. -/
theorem cyclic_parity_spec (startTime currentTime speed fps : ℚ) :
    (getFrameIndex startTime currentTime speed fps = 12 →
      getFrameIndexCyclic startTime currentTime speed fps 10 = 8) ∧
    (getFrameIndex startTime currentTime speed fps = 22 →
      getFrameIndexCyclic startTime currentTime speed fps 10 = 2) := by
  constructor <;> intro h <;> simp only [getFrameIndexCyclic, h] <;> decide

/-- Witness for `cyclic_parity_spec` at concrete clocks: with
startTime 0, speed 1, fps 30 the times 2/5 and 11/15 produce raw indices 12
and 22, and the cyclic indices are 8 and 2. -/
theorem cyclic_parity_spec_witness :
    (getFrameIndex 0 (2 / 5) 1 30 = 12 ∧ getFrameIndexCyclic 0 (2 / 5) 1 30 10 = 8) ∧
    (getFrameIndex 0 (11 / 15) 1 30 = 22 ∧ getFrameIndexCyclic 0 (11 / 15) 1 30 10 = 2) := by
  have h1 : getFrameIndex 0 (2 / 5) 1 30 = 12 := by norm_num [getFrameIndex, pyRound]
  have h2 : getFrameIndex 0 (11 / 15) 1 30 = 22 := by norm_num [getFrameIndex, pyRound]
  exact ⟨⟨h1, (cyclic_parity_spec 0 (2 / 5) 1 30).1 h1⟩,
    ⟨h2, (cyclic_parity_spec 0 (11 / 15) 1 30).2 h2⟩⟩

/-- C2 counterexample: for a 10-frame animation at a time exactly one full
pass after the start (raw index 10, startTime 0, time 1, speed 1, fps 10 —
satisfying every premise of the claim), `getFrameIndexCyclic` returns 10,
which is outside `[0, frameCount - 1]`. -/
theorem cyclic_out_of_range_cex :
    (0 : ℚ) ≤ 1 ∧ (0 : ℚ) ≤ 1 ∧ (0 : ℚ) ≤ 10 ∧ 1 ≤ (10 : ℕ) ∧
    getFrameIndex 0 1 1 10 = 10 ∧
    getFrameIndexCyclic 0 1 1 10 10 = 10 ∧
    ¬ getFrameIndexCyclic 0 1 1 10 10 ≤ (10 : ℤ) - 1 := by
  have h : getFrameIndex 0 1 1 10 = 10 := by norm_num [getFrameIndex, pyRound]
  refine ⟨by norm_num, by norm_num, by norm_num, by norm_num, h, ?_, ?_⟩ <;>
    simp only [getFrameIndexCyclic, h] <;> decide

/-- C2 (amended): with at least one frame and the current time at or after
the start, the clamped and repeat frame indices always lie in
`[0, frameCount - 1]`; the cyclic index lies in `[0, frameCount]` and takes
the out-of-bounds value `frameCount` exactly when the raw index is a
positive odd multiple of the frame count (`index % frameCount = 0` on an odd
pass), as `frameCount - index % frameCount` then yields `frameCount`. -/
theorem frame_index_policies_amended (startTime currentTime speed fps : ℚ)
    (frameCount : ℕ) (hfc : 1 ≤ frameCount) (ht : startTime ≤ currentTime)
    (hsp : 0 ≤ speed) (hfps : 0 ≤ fps) :
    (0 ≤ getFrameIndexClamped startTime currentTime speed fps frameCount ∧
      getFrameIndexClamped startTime currentTime speed fps frameCount ≤ (frameCount : ℤ) - 1) ∧
    (0 ≤ getFrameIndexRepeat startTime currentTime speed fps frameCount ∧
      getFrameIndexRepeat startTime currentTime speed fps frameCount ≤ (frameCount : ℤ) - 1) ∧
    (0 ≤ getFrameIndexCyclic startTime currentTime speed fps frameCount ∧
      getFrameIndexCyclic startTime currentTime speed fps frameCount ≤ (frameCount : ℤ)) ∧
    (getFrameIndexCyclic startTime currentTime speed fps frameCount = (frameCount : ℤ) ↔
      getFrameIndex startTime currentTime speed fps % (frameCount : ℤ) = 0 ∧
      Int.ediv (getFrameIndex startTime currentTime speed fps) (frameCount : ℤ) % 2 = 1) := by
  have hidx : 0 ≤ getFrameIndex startTime currentTime speed fps :=
    getFrameIndex_nonneg _ _ _ _ ht hsp hfps
  have hfcZ : (0 : ℤ) < (frameCount : ℤ) := by exact_mod_cast hfc
  have hm0 : 0 ≤ getFrameIndex startTime currentTime speed fps % (frameCount : ℤ) :=
    Int.emod_nonneg _ (by omega)
  have hm1 : getFrameIndex startTime currentTime speed fps % (frameCount : ℤ) <
      (frameCount : ℤ) := Int.emod_lt_of_pos _ hfcZ
  refine ⟨⟨?_, ?_⟩, ⟨?_, ?_⟩, ?_, ?_⟩
  · exact le_min (by omega) hidx
  · exact min_le_left _ _
  · simp only [getFrameIndexRepeat]; omega
  · simp only [getFrameIndexRepeat]; omega
  · simp only [getFrameIndexCyclic]
    split_ifs <;> omega
  · constructor
    · intro hEq
      simp only [getFrameIndexCyclic] at hEq
      split_ifs at hEq with hrev
      · refine ⟨by omega, ?_⟩
        rcases Int.emod_two_eq_zero_or_one
          (Int.ediv (getFrameIndex startTime currentTime speed fps) (frameCount : ℤ)) with
          h2 | h2
        · exact absurd h2 hrev
        · exact h2
      · omega
    · intro hEq
      simp only [getFrameIndexCyclic, hEq.1, hEq.2]
      norm_num

/-- Witness for `frame_index_policies_amended` at startTime 0, time 1,
speed 1, fps 7, frameCount 10 (raw index 7): all three policies stay in
their proved ranges. -/
theorem frame_index_policies_amended_witness :
    (1 ≤ (10 : ℕ) ∧ (0 : ℚ) ≤ 1 ∧ (0 : ℚ) ≤ 1 ∧ (0 : ℚ) ≤ 7) ∧
    (0 ≤ getFrameIndexClamped 0 1 1 7 10 ∧ getFrameIndexClamped 0 1 1 7 10 ≤ (10 : ℤ) - 1) ∧
    (0 ≤ getFrameIndexRepeat 0 1 1 7 10 ∧ getFrameIndexRepeat 0 1 1 7 10 ≤ (10 : ℤ) - 1) ∧
    (0 ≤ getFrameIndexCyclic 0 1 1 7 10 ∧ getFrameIndexCyclic 0 1 1 7 10 ≤ (10 : ℤ)) := by
  have h := frame_index_policies_amended 0 1 1 7 10 (by norm_num) (by norm_num)
    (by norm_num) (by norm_num)
  exact ⟨⟨by norm_num, by norm_num, by norm_num, by norm_num⟩, h.1, h.2.1, h.2.2.1⟩

/-! ## Mesh building (skinned.py / skin.py) -/

theorem pushTriangle4_length (w h : ℚ) (acc : List ℚ × List ℕ) (tri : Tri) :
    (pushTriangle4 w h acc tri).1.length = acc.1.length + 12 := by
  simp [pushTriangle4, List.foldl]

theorem pushTriangle2_length (acc : List ℚ × List ℕ) (tri : Tri) :
    (pushTriangle2 acc tri).1.length = acc.1.length + 6 := by
  simp [pushTriangle2, List.foldl]

theorem foldl_pushTriangle4_length (w h : ℚ) (tris : List Tri) :
    ∀ acc : List ℚ × List ℕ,
      (tris.foldl (pushTriangle4 w h) acc).1.length = acc.1.length + 12 * tris.length := by
  induction tris with
  | nil => simp
  | cons t tl ih =>
    intro acc
    rw [List.foldl_cons, ih, pushTriangle4_length]
    simp [List.length_cons]
    ring

theorem foldl_pushTriangle2_length (tris : List Tri) :
    ∀ acc : List ℚ × List ℕ,
      (tris.foldl pushTriangle2 acc).1.length = acc.1.length + 6 * tris.length := by
  induction tris with
  | nil => simp
  | cons t tl ih =>
    intro acc
    rw [List.foldl_cons, ih, pushTriangle2_length]
    simp [List.length_cons]
    ring

/-- C8: for every triangle list whose elements are triples of 2D points (as
the `Tri` type enforces), both `updateVerticesFromTriangles` and the skin.py
variant `updateMeshFromTriangles` produce buffers whose reconstructed vertex
count divided by three equals the triangle count, so the fatal
`Invalid vertex count` branch is unreachable and both functions succeed. -/
theorem mesh_vertex_count_check_unreachable (tris : List Tri) (w h : ℚ) :
    (∃ out, updateVerticesFromTriangles tris w h = Except.ok out ∧
      out.1.length / 4 / 3 = tris.length) ∧
    (∃ out, updateMeshFromTriangles tris = Except.ok out ∧
      out.1.length / 2 / 3 = tris.length) := by
  have h4 : (tris.foldl (pushTriangle4 w h) ([], [])).1.length = 12 * tris.length := by
    rw [foldl_pushTriangle4_length]; simp
  have h2 : (tris.foldl pushTriangle2 ([], [])).1.length = 6 * tris.length := by
    rw [foldl_pushTriangle2_length]; simp
  have hc4 : (tris.foldl (pushTriangle4 w h) ([], [])).1.length / 4 / 3 = tris.length := by
    rw [h4]; omega
  have hc2 : (tris.foldl pushTriangle2 ([], [])).1.length / 2 / 3 = tris.length := by
    rw [h2]; omega
  refine ⟨⟨_, ?_, hc4⟩, ⟨_, ?_, hc2⟩⟩
  · simp [updateVerticesFromTriangles, hc4]
  · simp [updateMeshFromTriangles, hc2]

/-! ## Animation player track reconciliation (skinnedplayer.py) -/

theorem trackStart_cons (t : PTrack) (tl : List PTrack) (n : String) :
    trackStart (t :: tl) n =
      if t.name = n then some t.startTime else trackStart tl n := by
  by_cases h : t.name = n
  · rw [if_pos h, trackStart, List.find?_cons_of_pos _ (by simp [h])]
    rfl
  · rw [if_neg h, trackStart, List.find?_cons_of_neg _ (by simp [h])]
    rfl

theorem trackStart_filter (infos : List String) (n : String) :
    ∀ ts : List PTrack,
      trackStart (ts.filter (fun t => infos.contains t.name)) n =
        if n ∈ infos then trackStart ts n else none := by
  intro ts
  induction ts with
  | nil => simp [trackStart]
  | cons t tl ih =>
    rw [List.filter_cons]
    by_cases hmem : t.name ∈ infos
    · rw [if_pos (by simpa [List.elem_eq_mem] using hmem), trackStart_cons,
        trackStart_cons, ih]
      by_cases hn : t.name = n
      · subst hn
        simp [hmem]
      · simp [hn]
    · rw [if_neg (by simpa [List.elem_eq_mem] using hmem), ih, trackStart_cons]
      by_cases hn : t.name = n
      · subst hn
        simp [hmem]
      · simp [hn]

theorem trackStart_append_single (ts : List PTrack) (m n : String) (now : ℚ) :
    trackStart (ts ++ [⟨m, now⟩]) n =
      (trackStart ts n).or (if m = n then some now else none) := by
  have hsing : List.find? (fun t : PTrack => t.name == n) [⟨m, now⟩] =
      if m = n then some ⟨m, now⟩ else none := by
    by_cases hn : m = n
    · simp [List.find?, hn]
    · have hb : (m == n) = false := by simp [hn]
      simp [List.find?, hb, hn]
  rw [trackStart, List.find?_append, hsing, trackStart]
  by_cases hn : m = n <;> cases hcase : ts.find? (fun t : PTrack => t.name == n) <;>
    simp [hn, hcase]

theorem trackStart_startTrack (ts : List PTrack) (m n : String) (now : ℚ) :
    trackStart (startTrack now ts m) n =
      if n = m then some ((trackStart ts m).getD now) else trackStart ts n := by
  rw [startTrack]
  by_cases hfind : (ts.find? (fun t => t.name == m)).isSome
  · rw [if_pos hfind]
    rcases Option.isSome_iff_exists.mp hfind with ⟨t, ht⟩
    by_cases hn : n = m
    · subst hn
      simp [trackStart, ht]
    · rw [if_neg hn]
  · rw [if_neg hfind]
    have hnone : ts.find? (fun t => t.name == m) = none :=
      Option.not_isSome_iff_eq_none.mp hfind
    have hts : trackStart ts m = none := by
      rw [trackStart, hnone]
      rfl
    rw [trackStart_append_single]
    by_cases hn : n = m
    · subst hn
      simp [hts]
    · rw [if_neg hn, if_neg (fun h => hn h.symm), Option.or_none]

theorem trackStart_startTracks (infos : List String) :
    ∀ (tracks : List PTrack) (now : ℚ) (n : String),
      trackStart (startTracks tracks infos now) n =
        if n ∈ infos then some ((trackStart tracks n).getD now)
        else trackStart tracks n := by
  induction infos with
  | nil => intro tracks now n; simp [startTracks]
  | cons m rest ih =>
    intro tracks now n
    have hfold : startTracks tracks (m :: rest) now =
        startTracks (startTrack now tracks m) rest now := rfl
    rw [hfold, ih]
    by_cases hn : n = m
    · subst hn
      by_cases hr : n ∈ rest
      · simp [hr, trackStart_startTrack]
      · simp [hr, trackStart_startTrack]
    · by_cases hr : n ∈ rest
      · simp [hr, hn, trackStart_startTrack, List.mem_cons]
      · have : n ∉ m :: rest := by simp [hn, hr]
        simp [hr, hn, this, trackStart_startTrack]

/-- C6: after `AnimationPlayer.play(infos)` the running track set is exactly
the names in `infos`: a requested track keeps its startTime when it was
already running and is started at the current playback clock otherwise, and
a running track absent from the request is removed. In particular
`play([A]); play([B])` leaves only `B` (started at the second clock), and
playing `[A]` twice keeps A's original startTime. -/
theorem play_reconciles_tracks :
    (∀ (tracks : List PTrack) (infos : List String) (now : ℚ) (n : String),
      n ∈ infos →
        trackStart (AnimationPlayer.play tracks infos now) n =
          some ((trackStart tracks n).getD now)) ∧
    (∀ (tracks : List PTrack) (infos : List String) (now : ℚ) (n : String),
      n ∉ infos →
        trackStart (AnimationPlayer.play tracks infos now) n = none) ∧
    AnimationPlayer.play (AnimationPlayer.play [] ["A"] 0) ["B"] 1 = [⟨"B", 1⟩] ∧
    trackStart (AnimationPlayer.play (AnimationPlayer.play [] ["A"] 0) ["A"] 5) "A" =
      some 0 := by
  refine ⟨?_, ?_, by decide, by decide⟩
  · intro tracks infos now n hmem
    rw [AnimationPlayer.play, trackStart_filter, if_pos hmem, trackStart_startTracks,
      if_pos hmem]
  · intro tracks infos now n hmem
    rw [AnimationPlayer.play, trackStart_filter, if_neg hmem]

/-- Witness for `play_reconciles_tracks`: a fresh track "A" is started at the
requested clock, and a running track "B" absent from the request is
removed. -/
theorem play_reconciles_tracks_witness :
    ("A" ∈ ["A"] ∧
      trackStart (AnimationPlayer.play [] ["A"] (3 : ℚ)) "A" =
        some ((trackStart [] "A").getD 3)) ∧
    ("B" ∉ ["A"] ∧
      trackStart (AnimationPlayer.play [⟨"B", 2⟩] ["A"] (3 : ℚ)) "B" = none) :=
  ⟨⟨by simp, play_reconciles_tracks.1 [] ["A"] 3 "A" (by simp)⟩,
   ⟨by simp, play_reconciles_tracks.2.1 [⟨"B", 2⟩] ["A"] 3 "B" (by simp)⟩⟩

/-! ## Modal attribute edits (skinnededitor.py) -/

theorem setAttr_setAttr (b : SkinnedBone) (a : EditAttr) (v w : ℚ) :
    setAttr (setAttr b a v) a w = setAttr b a w := by
  cases a <;> simp [setAttr]

theorem setAttr_getAttr (b : SkinnedBone) (a : EditAttr) :
    setAttr b a (getAttr b a) = b := by
  cases a <;> simp [setAttr, getAttr]

theorem cancel_foldl_update (e : AttributeEdit) (angles : List ℚ) :
    ∀ b : SkinnedBone,
      e.cancel (angles.foldl (fun bb ang => e.update ang bb) b) = e.cancel b := by
  induction angles with
  | nil => intro b; rfl
  | cons a tl ih =>
    intro b
    rw [List.foldl_cons, ih]
    simp [AttributeEdit.update, AttributeEdit.cancel, setAttr_setAttr]

/-- C9: canceling a modal rotation/scale edit restores the bone exactly as it
was when the gesture began, no matter how many per-tick updates ran in
between; and `PoseMode.newEdit` keeps at most one edit active — starting a
new edit first cancels the prior uncommitted one, restoring its attribute's
original value. -/
theorem modal_edit_cancel_restores :
    (∀ (b : SkinnedBone) (attr : EditAttr) (startAngle : ℚ) (angles : List ℚ),
      (AttributeEdit.start b attr startAngle).cancel
        (angles.foldl
          (fun bb ang => (AttributeEdit.start b attr startAngle).update ang bb) b) = b) ∧
    (∀ (b : SkinnedBone) (attr : EditAttr) (startAngle : ℚ) (angles : List ℚ)
        (e2 : AttributeEdit),
      newEdit (some (AttributeEdit.start b attr startAngle)) e2
        (angles.foldl
          (fun bb ang => (AttributeEdit.start b attr startAngle).update ang bb) b) =
        (some e2, b)) := by
  have key : ∀ (b : SkinnedBone) (attr : EditAttr) (startAngle : ℚ) (angles : List ℚ),
      (AttributeEdit.start b attr startAngle).cancel
        (angles.foldl
          (fun bb ang => (AttributeEdit.start b attr startAngle).update ang bb) b) = b := by
    intro b attr sa angles
    rw [cancel_foldl_update]
    simp [AttributeEdit.cancel, AttributeEdit.start, setAttr_getAttr]
  exact ⟨key, fun b attr sa angles e2 => by simp [newEdit, key b attr sa angles]⟩

/-! ## Serialization round-trip (skinned.py / skin.py) -/

theorem loadBoneFull_saveBoneFull (b : SkinnedBone) :
    loadBoneFull (saveBoneFull b) = normFull b := rfl

theorem loadSkinBone_saveSkinBone (b : SkinBone) :
    loadSkinBone (saveSkinBone b) = normSkin b := rfl

/-- C4 (amended): a save/load round-trip reproduces
name/children/parent/image/pos/pivot/rotation/scale/zOrder/visible/wireFrame
of every bone exactly (`normFull`/`normSkin` leave them untouched), with
numbers preserved exactly; in the lean (skin.py) format the mesh and its
four buffers also round-trip (an empty buffer loads as absent) while the
derived `points`/`triangles` are absent afterwards; in the full (skinned.py)
format the vertex/index buffers round-trip (empty ones load as absent), but
the bone-weight/bone-index buffers — though written — are dropped by
`loadFromFile`, and the serialized `color`/`points`/`triangles` likewise
revert to constructor defaults. -/
theorem rig_roundtrip_amended (bonesF : List (String × SkinnedBone))
    (bonesL : List (String × SkinBone))
    (hF : ∀ p ∈ bonesF, p.1 = p.2.name) (hL : ∀ p ∈ bonesL, p.1 = p.2.name) :
    skinnedLoad (skinnedSave bonesF) =
      Except.ok (bonesF.map (fun nb => (nb.1, normFull nb.2))) ∧
    skinLoad (skinSave bonesL) =
      Except.ok (bonesL.map (fun nb => (nb.1, normSkin nb.2))) := by
  constructor
  · rw [skinnedSave, skinnedLoad, if_neg (by simp)]
    congr 1
    rw [List.map_map]
    refine List.map_congr_left ?_
    intro p hp
    simp only [Function.comp_apply, loadBoneFull_saveBoneFull]
    rw [saveBoneFull, ← hF p hp]
  · rw [skinSave, skinLoad, if_neg (by simp)]
    congr 1
    rw [List.map_map]
    refine List.map_congr_left ?_
    intro p hp
    simp only [Function.comp_apply, loadSkinBone_saveSkinBone]
    rw [saveSkinBone, ← hL p hp]

/-- C4 counterexample: the full format writes `demoWeightBone`'s bone-weight
buffer into the document, yet after the round-trip the buffer is gone, so
saving-then-loading does not reproduce every field the save wrote. -/
theorem full_roundtrip_drops_weights_cex :
    (saveBoneFull demoWeightBone).boneWeights = some [1, 0, 0, 0] ∧
    (loadBoneFull (saveBoneFull demoWeightBone)).boneWeights = none ∧
    loadBoneFull (saveBoneFull demoWeightBone) ≠ demoWeightBone := by
  refine ⟨rfl, rfl, fun h => ?_⟩
  have hw := congrArg SkinnedBone.boneWeights h
  rw [loadBoneFull_saveBoneFull] at hw
  simp [normFull, demoWeightBone, mkSkinnedBone] at hw

/-- Witness for `rig_roundtrip_amended` on a one-bone rig. -/
theorem rig_roundtrip_amended_witness :
    (∀ p ∈ [("a", demoWeightBone)], p.1 = (p.2 : SkinnedBone).name) ∧
    skinnedLoad (skinnedSave [("a", demoWeightBone)]) =
      Except.ok ([("a", demoWeightBone)].map (fun nb => (nb.1, normFull nb.2))) ∧
    skinLoad (skinSave [("m", mkSkinBone "m")]) =
      Except.ok ([("m", mkSkinBone "m")].map (fun nb => (nb.1, normSkin nb.2))) := by
  have h1 : ∀ p ∈ [("a", demoWeightBone)], p.1 = (p.2 : SkinnedBone).name := by
    simp [demoWeightBone, mkSkinnedBone]
  have h2 : ∀ p ∈ [("m", mkSkinBone "m")], p.1 = (p.2 : SkinBone).name := by
    simp [mkSkinBone]
  have h := rig_roundtrip_amended [("a", demoWeightBone)] [("m", mkSkinBone "m")] h1 h2
  exact ⟨h1, h.1, h.2⟩

/-! ## Keyframe interpolation and baking (skinnedanimation.py) -/

theorem keyed_lt (frames : List Frame) (name : String) (s : ℕ)
    (h : ((frames.get? s).map (·.hasKey name)).getD false = true) :
    s < frames.length := by
  by_contra hns
  rw [List.get?_eq_none.mpr (le_of_not_lt hns)] at h
  simp at h

/-- C10: `bakeFrames` is not read-only on the animation. `Frame.copy` copies
only the key dictionary, so the bake of the 11-frame fixture shares frame
10's `KeyFrame` object (reference 1) with the stored animation; the stored
key carries `keyR 1` before baking, and after baking the very same stored
location carries frame 0's content `keyA ≠ keyR 1` — the wrap-smoothing
branch wrote through the shared object and permanently changed the sparse
animation (`apply` triggers this on every invocation, since it always calls
`bakeFrames`). -/
theorem bake_mutates_stored_animation :
    ((testAnim 11 1).frames.get? 10).bind (·.find "b") = some 1 ∧
    (bakeFrames (testAnim 11 1)).map (fun br => (br.1.get? 10).bind (·.find "b")) =
      some (some 1) ∧
    cellAt (testAnim 11 1) 10 "b" = some (keyR 1) ∧
    (bakeFrames (testAnim 11 1)).map (fun br => cellAt br.2 10 "b") = some (some keyA) ∧
    (bakeFrames (testAnim 11 1)).map (fun br => br.2.frames) =
      some (testAnim 11 1).frames ∧
    keyR 1 ≠ keyA := by
  exact ⟨rfl, rfl, rfl, rfl, rfl, by decide⟩

/-- C1 counterexample: for an animation with exactly 11 frames whose bone is
keyed at frame 0 with rotation 0 and frame 10 with rotation 1, `apply(5)`
sets the bone's rotation.z to 0 and not to the interpolation of the two keys
with weight (5 - 0)/(10 - 0), which would be 1/2. -/
theorem apply_at_eleven_frames_cex :
    (SkinnedAnimation.apply (testAnim 11 1) 5 [("b", keyA)]).map
        (fun out => out.1.map (fun nb => (nb.1, nb.2.rotation.2.2))) =
      some [("b", 0)] ∧
    (0 : ℚ) ≠ 0 + (1 - 0) * (((5 : ℚ) - 0) / ((10 : ℚ) - 0)) := by
  constructor
  · have hstep : (SkinnedAnimation.apply (testAnim 11 1) 5 [("b", keyA)]).map
        (fun out => out.1.map (fun nb => (nb.1, nb.2.rotation.2.2))) =
      some [("b", 0 + (0 - 0) *
        ((((5 : ℕ) : ℚ) - ((0 : ℕ) : ℚ)) / (((10 : ℕ) : ℚ) - ((0 : ℕ) : ℚ))))] := rfl
    rw [hstep]
    norm_num
  · norm_num

/-- C1 (amended): `apply` dispatches on the baked frames — when the
bracketing baked key range around `frameNumber` has start = end, that baked
key's values are copied verbatim onto the bone; otherwise pivot, rotation
and scale are set to the linear interpolation of the baked start and end
keys with weight (frameNumber - start)/(end - start) while zOrder/visible
come from the start key. For an animation with 12 frames and keys at frames
0 and 10 carrying rotation 0 and r, apply(5, bones) sets the bone's rotation
to r/2; with exactly 11 frames the wrap smoothing of `bakeFrames` overwrites
the baked (and stored) frame-10 key with frame 0's content first, making
apply(5) yield rotation 0 instead. -/
theorem apply_interpolation_amended :
    (∀ (baked : List Frame) (heap : Heap) (fn : ℕ) (name : String) (bone : KeyData)
        (s : ℕ) (rs : Ref) (d : KeyData),
      findKeyFrameRange baked fn name = (some s, some s) →
      (baked.get? s).bind (·.find name) = some rs →
      heap.read rs = some d →
      applyBone baked heap fn name bone = some d) ∧
    (∀ (baked : List Frame) (heap : Heap) (fn : ℕ) (name : String) (bone : KeyData)
        (s e : ℕ) (rs re : Ref) (ds de : KeyData),
      columnInjective baked name = true →
      findKeyFrameRange baked fn name = (some s, some e) →
      s ≠ e →
      (baked.get? s).bind (·.find name) = some rs →
      (baked.get? e).bind (·.find name) = some re →
      heap.read rs = some ds →
      heap.read re = some de →
      applyBone baked heap fn name bone =
        some (interpolateKeyData ds de (((fn : ℚ) - (s : ℚ)) / ((e : ℚ) - (s : ℚ))))) ∧
    (∀ r : ℚ,
      (SkinnedAnimation.apply (testAnim 12 r) 5 [("b", keyA)]).map
          (fun out => out.1.map (fun nb => (nb.1, nb.2.rotation.2.2))) =
        some [("b", r / 2)]) := by
  refine ⟨?_, ?_, ?_⟩
  · intro baked heap fn name bone s rs d hrange hs hd
    unfold applyBone
    simp only [hrange]
    simp only [hs]
    simp [hd]
  · intro baked heap fn name bone s e rs re ds de hinj hrange hne hs he hds hde
    have hsp : ((List.range (fn + 1)).reverse).find?
        (fun i => ((baked.get? i).map (·.hasKey name)).getD false) = some s := by
      have := congrArg Prod.fst hrange
      simpa [findKeyFrameRange] using this
    have hslt : s < baked.length := by
      refine keyed_lt baked name s ?_
      have := List.find?_some hsp
      simpa using this
    have hep : ((List.range baked.length).drop fn).find?
        (fun i => ((baked.get? i).map (·.hasKey name)).getD false) = some e := by
      have := congrArg Prod.snd hrange
      simpa [findKeyFrameRange] using this
    have helt : e < baked.length := by
      refine keyed_lt baked name e ?_
      have := List.find?_some hep
      simpa using this
    have hrr : rs ≠ re := by
      intro hcontr
      have hall := List.all_eq_true.mp hinj s (List.mem_range.mpr hslt)
      have hall2 := List.all_eq_true.mp hall e (List.mem_range.mpr helt)
      have hb : (s == e) = false := by simp [hne]
      have hsme : ((baked.get? s).bind fun x => x.find name).isSome = true := by
        rw [hs]
        rfl
      rw [hb, hsme] at hall2
      simp at hall2
      have hs' := hs
      have he' := he
      rw [List.get?_eq_getElem?] at hs' he'
      rw [hs', he', hcontr] at hall2
      exact hall2 rfl
    unfold applyBone
    simp only [hrange]
    simp only [hs, he]
    simp [if_neg hrr, hds, hde]
  · intro r
    have hstep : (SkinnedAnimation.apply (testAnim 12 r) 5 [("b", keyA)]).map
        (fun out => out.1.map (fun nb => (nb.1, nb.2.rotation.2.2))) =
      some [("b", 0 + (r - 0) *
        ((((5 : ℕ) : ℚ) - ((0 : ℕ) : ℚ)) / (((10 : ℕ) : ℚ) - ((0 : ℕ) : ℚ))))] := rfl
    rw [hstep]
    norm_num
    ring

/-- Witness for `apply_interpolation_amended`: the verbatim-copy clause at a
one-frame baked column and the interpolation clause at the baked column of
the 12-frame fixture (frames 0 and 10, cells 0 and 1). -/
theorem apply_interpolation_amended_witness :
    (findKeyFrameRange demoBaked 0 "b" = (some 0, some 0) ∧
      applyBone demoBaked demoHeap 0 "b" (keyR 7) = some keyA) ∧
    (findKeyFrameRange (testAnim 12 1).frames 5 "b" = (some 0, some 10) ∧
      applyBone (testAnim 12 1).frames (testAnim 12 1).heap 5 "b" keyA =
        some (interpolateKeyData keyA (keyR 1)
          (((5 : ℚ) - ((0 : ℕ) : ℚ)) / (((10 : ℕ) : ℚ) - ((0 : ℕ) : ℚ))))) := by
  constructor
  · exact ⟨by decide, apply_interpolation_amended.1 demoBaked demoHeap 0 "b" (keyR 7)
      0 0 keyA (by decide) (by decide) (by decide)⟩
  · refine ⟨by decide, ?_⟩
    have h := apply_interpolation_amended.2.1 (testAnim 12 1).frames (testAnim 12 1).heap
      5 "b" keyA 0 10 0 1 keyA (keyR 1) (by decide) (by decide) (by decide) (by decide)
      (by decide) (by decide) (by decide)
    simpa using h

/-! ## connectBone (skinnededitor.py) -/

theorem lookupBone_cons (kv : String × SkinnedBone) (tl : List (String × SkinnedBone))
    (n : String) :
    lookupBone (kv :: tl) n = if kv.1 = n then some kv.2 else lookupBone tl n := by
  by_cases h : kv.1 = n
  · simp [lookupBone, List.find?, h]
  · have hb : (kv.1 == n) = false := by simp [h]
    simp [lookupBone, List.find?, hb, h]

theorem modifyBone_cons (kv : String × SkinnedBone) (tl : List (String × SkinnedBone))
    (n : String) (f : SkinnedBone → SkinnedBone) :
    modifyBone (kv :: tl) n f =
      (if kv.1 = n then (kv.1, f kv.2) else kv) :: modifyBone tl n f := by
  by_cases h : kv.1 = n <;> simp [modifyBone, h]

theorem lookupBone_modifyBone_self (n : String) (f : SkinnedBone → SkinnedBone) :
    ∀ bs, lookupBone (modifyBone bs n f) n = (lookupBone bs n).map f := by
  intro bs
  induction bs with
  | nil => rfl
  | cons kv tl ih =>
    rw [modifyBone_cons, lookupBone_cons, lookupBone_cons]
    by_cases h : kv.1 = n <;> simp [h, ih]

theorem lookupBone_modifyBone_ne (n m : String) (f : SkinnedBone → SkinnedBone)
    (hnm : m ≠ n) :
    ∀ bs, lookupBone (modifyBone bs n f) m = lookupBone bs m := by
  intro bs
  induction bs with
  | nil => rfl
  | cons kv tl ih =>
    rw [modifyBone_cons, lookupBone_cons, lookupBone_cons]
    have h3 : n ≠ m := fun hh => hnm hh.symm
    by_cases h1 : kv.1 = n
    · have h2 : ¬ kv.1 = m := by
        rw [h1]
        intro hh
        exact hnm hh.symm
      simp [h1, h2, ih, h3]
    · by_cases h2 : kv.1 = m <;> simp [h1, h2, ih, hnm]

theorem lookupBone_modifyBone_isSome (bs : List (String × SkinnedBone)) (n m : String)
    (f : SkinnedBone → SkinnedBone) :
    (lookupBone (modifyBone bs n f) m).isSome = (lookupBone bs m).isSome := by
  by_cases h : m = n
  · subst h
    rw [lookupBone_modifyBone_self]
    cases lookupBone bs m <;> rfl
  · rw [lookupBone_modifyBone_ne n m f h]

theorem lookupBone_mem (bs : List (String × SkinnedBone)) (n : String) (b : SkinnedBone)
    (h : lookupBone bs n = some b) : (n, b) ∈ bs := by
  rw [lookupBone] at h
  cases hf : bs.find? (fun kv => kv.1 == n) with
  | none => rw [hf] at h; simp at h
  | some kv =>
    rw [hf] at h
    cases kv with
    | mk k v =>
      have hkey : k = n := by simpa using List.find?_some hf
      have hval : v = b := by simpa using h
      subst hkey
      subst hval
      exact List.mem_of_find?_eq_some hf

theorem consistentB_keys (bs : List (String × SkinnedBone)) (h : consistentB bs = true) :
    (bs.map Prod.fst).Nodup := by
  rw [consistentB] at h
  simp only [Bool.and_eq_true, decide_eq_true_eq] at h
  exact h.1.1.1

theorem consistentB_childParent (bs : List (String × SkinnedBone))
    (h : consistentB bs = true) :
    ∀ p pb, lookupBone bs p = some pb → ∀ c ∈ pb.children,
      ∃ cb, lookupBone bs c = some cb ∧ cb.parent = some p := by
  intro p pb hp c hc
  rw [consistentB] at h
  simp only [Bool.and_eq_true] at h
  have h1 := List.all_eq_true.mp h.1.1.2 (p, pb) (lookupBone_mem bs p pb hp)
  rw [Bool.and_eq_true] at h1
  have h2 := List.all_eq_true.mp h1.1 c hc
  cases hl : lookupBone bs c with
  | none => rw [hl] at h2; simp at h2
  | some cb =>
    rw [hl] at h2
    simp only [beq_iff_eq] at h2
    exact ⟨cb, rfl, h2⟩

theorem consistentB_childrenNodup (bs : List (String × SkinnedBone))
    (h : consistentB bs = true) :
    ∀ p pb, lookupBone bs p = some pb → pb.children.Nodup := by
  intro p pb hp
  rw [consistentB] at h
  simp only [Bool.and_eq_true] at h
  have h1 := List.all_eq_true.mp h.1.1.2 (p, pb) (lookupBone_mem bs p pb hp)
  rw [Bool.and_eq_true] at h1
  simpa using h1.2

theorem consistentB_disjoint (bs : List (String × SkinnedBone))
    (h : consistentB bs = true) :
    ∀ p pb q qb, lookupBone bs p = some pb → lookupBone bs q = some qb → p ≠ q →
      ∀ c ∈ pb.children, c ∉ qb.children := by
  intro p pb q qb hp hq hne c hc
  rw [consistentB] at h
  simp only [Bool.and_eq_true] at h
  have ha := List.all_eq_true.mp
    (List.all_eq_true.mp h.1.2 (p, pb) (lookupBone_mem bs p pb hp))
    (q, qb) (lookupBone_mem bs q qb hq)
  rw [Bool.or_eq_true] at ha
  rcases ha with h1 | h1
  · exact absurd (by simpa using h1) hne
  · have h2 := List.all_eq_true.mp h1 c hc
    simpa using h2

theorem consistentB_parentChild (bs : List (String × SkinnedBone))
    (h : consistentB bs = true) :
    ∀ c cb q, lookupBone bs c = some cb → cb.parent = some q →
      ∀ qb, lookupBone bs q = some qb → c ∈ qb.children := by
  intro c cb q hc hpar qb hq
  rw [consistentB] at h
  simp only [Bool.and_eq_true] at h
  have h1 := List.all_eq_true.mp h.2 (c, cb) (lookupBone_mem bs c cb hc)
  simp only [hpar, hq] at h1
  simpa using h1

theorem connectBone_eq (bs : List (String × SkinnedBone)) (c p : String)
    (cb pb : SkinnedBone) (hc : lookupBone bs c = some cb)
    (hp : lookupBone bs p = some pb) :
    connectBone bs c p =
      if c ∈ pb.children then some bs
      else
        (removeFromOldParent bs (oldParentOf bs cb) c).bind fun bs1 =>
          some (modifyBone (modifyBone bs1 p (appendChild c)) c (setParent p)) := by
  unfold connectBone
  rw [hc, hp]
  rfl

theorem removeFromOldParent_cases (bs : List (String × SkinnedBone))
    (op : Option String) (c : String) (bs1 : List (String × SkinnedBone))
    (h : removeFromOldParent bs op c = some bs1) :
    bs1 = bs ∨ ∃ q qb, op = some q ∧ lookupBone bs q = some qb ∧ c ∈ qb.children ∧
      bs1 = modifyBone bs q (eraseChild c) := by
  cases op with
  | none =>
    left
    rw [removeFromOldParent] at h
    exact (Option.some.inj h).symm
  | some q =>
    right
    rw [removeFromOldParent] at h
    cases hq : lookupBone bs q with
    | none => rw [hq] at h; simp at h
    | some qb =>
      rw [hq] at h
      simp only [Option.some_bind] at h
      by_cases hmem : c ∈ qb.children
      · rw [if_pos hmem] at h
        exact ⟨q, qb, rfl, hq, hmem, (Option.some.inj h).symm⟩
      · rw [if_neg hmem] at h
        simp at h

/-- After a successful `removeFromOldParent`, every bone is still present. -/
theorem removeFromOldParent_isSome (bs : List (String × SkinnedBone))
    (op : Option String) (c : String) (bs1 : List (String × SkinnedBone))
    (h : removeFromOldParent bs op c = some bs1) (m : String) :
    (lookupBone bs1 m).isSome = (lookupBone bs m).isSome := by
  rcases removeFromOldParent_cases bs op c bs1 h with h1 | ⟨q, qb, _, _, _, h1⟩
  · rw [h1]
  · rw [h1, lookupBone_modifyBone_isSome]

/-- In a consistent rig where `c` is not among the new parent's children, the
removal phase of `connectBone` succeeds, leaves the new parent untouched,
keeps `c` present, and afterwards `c` appears in no children list at all. -/
theorem connectBone_active (bs : List (String × SkinnedBone)) (c p : String)
    (cb pb : SkinnedBone) (hcons : consistentB bs = true)
    (hc : lookupBone bs c = some cb) (hp : lookupBone bs p = some pb)
    (hmem : c ∉ pb.children) :
    ∃ bs1, removeFromOldParent bs (oldParentOf bs cb) c = some bs1 ∧
      lookupBone bs1 p = some pb ∧
      (∃ cb1, lookupBone bs1 c = some cb1 ∧ (p = c → cb1 = pb)) ∧
      (∀ q' qb', lookupBone bs1 q' = some qb' → c ∉ qb'.children) := by
  have hcbpb : p = c → cb = pb := by
    intro hpc
    subst hpc
    rw [hc] at hp
    exact Option.some.inj hp
  cases hcp : cb.parent with
  | none =>
    have hop : oldParentOf bs cb = none := by simp [oldParentOf, hcp]
    have hout : ∀ q' qb', lookupBone bs q' = some qb' → c ∉ qb'.children := by
      intro q' qb' hq' hcin
      obtain ⟨cb0, hcb0, hpar0⟩ := consistentB_childParent bs hcons q' qb' hq' c hcin
      rw [hc] at hcb0
      rw [← Option.some.inj hcb0] at hpar0
      rw [hcp] at hpar0
      exact Option.noConfusion hpar0
    exact ⟨bs, by simp [hop, removeFromOldParent], hp, ⟨cb, hc, hcbpb⟩, hout⟩
  | some q =>
    cases hlq : lookupBone bs q with
    | none =>
      have hop : oldParentOf bs cb = none := by simp [oldParentOf, hcp, hlq]
      have hout : ∀ q' qb', lookupBone bs q' = some qb' → c ∉ qb'.children := by
        intro q' qb' hq' hcin
        obtain ⟨cb0, hcb0, hpar0⟩ := consistentB_childParent bs hcons q' qb' hq' c hcin
        rw [hc] at hcb0
        rw [← Option.some.inj hcb0] at hpar0
        rw [hcp] at hpar0
        have hqq : q = q' := Option.some.inj hpar0
        rw [← hqq, hlq] at hq'
        exact Option.noConfusion hq'
      exact ⟨bs, by simp [hop, removeFromOldParent], hp, ⟨cb, hc, hcbpb⟩, hout⟩
    | some qb =>
      have hcin : c ∈ qb.children := consistentB_parentChild bs hcons c cb q hc hcp qb hlq
      have hqp : q ≠ p := by
        intro hh
        subst hh
        rw [hlq] at hp
        rw [Option.some.inj hp] at hcin
        exact hmem hcin
      have hop : oldParentOf bs cb = some q := by simp [oldParentOf, hcp, hlq]
      refine ⟨modifyBone bs q (eraseChild c), ?_, ?_, ?_, ?_⟩
      · simp [hop, removeFromOldParent, hlq, hcin]
      · rw [lookupBone_modifyBone_ne q p _ (fun hh => hqp hh.symm), hp]
      · by_cases hqc : q = c
        · subst hqc
          refine ⟨eraseChild q cb, ?_, ?_⟩
          · rw [lookupBone_modifyBone_self, hc]
            rfl
          · intro hpc
            exact absurd hpc.symm hqp
        · refine ⟨cb, ?_, hcbpb⟩
          rw [lookupBone_modifyBone_ne q c _ (fun hh => hqc hh.symm), hc]
      · intro q' qb' hq' hcin'
        by_cases hq'q : q' = q
        · subst hq'q
          rw [lookupBone_modifyBone_self, hlq] at hq'
          have : qb' = eraseChild c qb := (Option.some.inj hq').symm
          rw [this] at hcin'
          exact (consistentB_childrenNodup bs hcons q' qb hlq).not_mem_erase hcin'
        · rw [lookupBone_modifyBone_ne q q' _ hq'q] at hq'
          obtain ⟨cb0, hcb0, hpar0⟩ :=
            consistentB_childParent bs hcons q' qb' hq' c hcin'
          rw [hc] at hcb0
          rw [← Option.some.inj hcb0] at hpar0
          rw [hcp] at hpar0
          exact hq'q (Option.some.inj hpar0).symm

/-- C5: in a rig whose children lists and parent pointers are mutually
consistent, `connectBone(child, newParent)` succeeds, removes the child from
its old parent's children list (afterwards the child appears in no other
bone's children), appends it exactly once to the new parent's children, and
sets the child's parent pointer to the new parent's name; and `connectBone`
is idempotent — a second call with the same arguments returns the same rig
unchanged. -/
theorem connectBone_spec :
    (∀ (bs bs' : List (String × SkinnedBone)) (c p : String),
      connectBone bs c p = some bs' → connectBone bs' c p = some bs') ∧
    (∀ (bs : List (String × SkinnedBone)) (c p : String) (cb pb : SkinnedBone),
      consistentB bs = true →
      lookupBone bs c = some cb →
      lookupBone bs p = some pb →
      ∃ bs', connectBone bs c p = some bs' ∧
        (∃ cb', lookupBone bs' c = some cb' ∧ cb'.parent = some p) ∧
        (∃ pb', lookupBone bs' p = some pb' ∧ pb'.children.count c = 1) ∧
        (∀ q qb', q ≠ p → lookupBone bs' q = some qb' → c ∉ qb'.children) ∧
        (c ∉ pb.children → ∃ pb', lookupBone bs' p = some pb' ∧
          pb'.children = pb.children ++ [c])) := by
  constructor
  · intro bs bs' c p h
    cases hc : lookupBone bs c with
    | none =>
      unfold connectBone at h
      rw [hc] at h
      simp at h
    | some cb =>
      cases hp : lookupBone bs p with
      | none =>
        unfold connectBone at h
        rw [hc, hp] at h
        simp at h
      | some pb =>
        rw [connectBone_eq bs c p cb pb hc hp] at h
        by_cases hmem : c ∈ pb.children
        · rw [if_pos hmem] at h
          have hbs : bs = bs' := Option.some.inj h
          subst hbs
          rw [connectBone_eq bs c p cb pb hc hp, if_pos hmem]
        · rw [if_neg hmem] at h
          cases hrem : removeFromOldParent bs (oldParentOf bs cb) c with
          | none =>
            rw [hrem] at h
            simp at h
          | some bs1 =>
            rw [hrem] at h
            simp only [Option.some_bind] at h
            have hbs' : bs' = modifyBone (modifyBone bs1 p (appendChild c)) c
                (setParent p) := (Option.some.inj h).symm
            have hc1 : (lookupBone bs1 c).isSome := by
              rw [removeFromOldParent_isSome bs _ c bs1 hrem c, hc]
              rfl
            obtain ⟨cb1, hcb1⟩ := Option.isSome_iff_exists.mp hc1
            have hp1 : (lookupBone bs1 p).isSome := by
              rw [removeFromOldParent_isSome bs _ c bs1 hrem p, hp]
              rfl
            obtain ⟨pb1, hpb1⟩ := Option.isSome_iff_exists.mp hp1
            by_cases hpc : p = c
            · subst hpc
              have h2 : lookupBone (modifyBone bs1 p (appendChild p)) p =
                  some (appendChild p cb1) := by
                rw [lookupBone_modifyBone_self, hcb1]
                rfl
              have h3 : lookupBone bs' p = some (setParent p (appendChild p cb1)) := by
                rw [hbs', lookupBone_modifyBone_self, h2]
                rfl
              rw [connectBone_eq bs' p p _ _ h3 h3,
                if_pos (by simp [setParent, appendChild])]
            · have h2 : lookupBone (modifyBone bs1 p (appendChild c)) c =
                  some cb1 := by
                rw [lookupBone_modifyBone_ne p c _ (fun hh => hpc hh.symm), hcb1]
              have h3 : lookupBone bs' c = some (setParent p cb1) := by
                rw [hbs', lookupBone_modifyBone_self, h2]
                rfl
              have h4 : lookupBone (modifyBone bs1 p (appendChild c)) p =
                  some (appendChild c pb1) := by
                rw [lookupBone_modifyBone_self, hpb1]
                rfl
              have h5 : lookupBone bs' p = some (appendChild c pb1) := by
                rw [hbs', lookupBone_modifyBone_ne c p _ hpc, h4]
              rw [connectBone_eq bs' c p _ _ h3 h5,
                if_pos (by simp [appendChild])]
  · intro bs c p cb pb hcons hc hp
    by_cases hmem : c ∈ pb.children
    · refine ⟨bs, ?_, ?_, ?_, ?_, ?_⟩
      · rw [connectBone_eq bs c p cb pb hc hp, if_pos hmem]
      · obtain ⟨cb0, hcb0, hpar0⟩ := consistentB_childParent bs hcons p pb hp c hmem
        rw [hc] at hcb0
        exact ⟨cb, hc, by rw [Option.some.inj hcb0]; exact hpar0⟩
      · exact ⟨pb, hp,
          List.count_eq_one_of_mem (consistentB_childrenNodup bs hcons p pb hp) hmem⟩
      · intro q qb' hqp hq
        exact consistentB_disjoint bs hcons p pb q qb' hp hq
          (fun hh => hqp hh.symm) c hmem
      · intro hnot
        exact absurd hmem hnot
    · obtain ⟨bs1, hrem, hp1, ⟨cb1, hc1, hpc1⟩, hout⟩ :=
        connectBone_active bs c p cb pb hcons hc hp hmem
      refine ⟨modifyBone (modifyBone bs1 p (appendChild c)) c (setParent p),
        ?_, ?_, ?_, ?_, ?_⟩
      · rw [connectBone_eq bs c p cb pb hc hp, if_neg hmem, hrem]
        rfl
      · by_cases hpc : p = c
        · subst hpc
          have h2 : lookupBone (modifyBone bs1 p (appendChild p)) p =
              some (appendChild p cb1) := by
            rw [lookupBone_modifyBone_self, hc1]
            rfl
          refine ⟨setParent p (appendChild p cb1), ?_, rfl⟩
          rw [lookupBone_modifyBone_self, h2]
          rfl
        · have h2 : lookupBone (modifyBone bs1 p (appendChild c)) c = some cb1 := by
            rw [lookupBone_modifyBone_ne p c _ (fun hh => hpc hh.symm), hc1]
          refine ⟨setParent p cb1, ?_, rfl⟩
          rw [lookupBone_modifyBone_self, h2]
          rfl
      · by_cases hpc : p = c
        · subst hpc
          have hcb1pb : cb1 = pb := hpc1 rfl
          have h2 : lookupBone (modifyBone bs1 p (appendChild p)) p =
              some (appendChild p cb1) := by
            rw [lookupBone_modifyBone_self, hc1]
            rfl
          refine ⟨setParent p (appendChild p cb1), ?_, ?_⟩
          · rw [lookupBone_modifyBone_self, h2]
            rfl
          · have hcount : pb.children.count p = 0 :=
              List.count_eq_zero_of_not_mem hmem
            simp [setParent, appendChild, hcb1pb, hcount]
        · have h4 : lookupBone (modifyBone bs1 p (appendChild c)) p =
              some (appendChild c pb) := by
            rw [lookupBone_modifyBone_self, hp1]
            rfl
          refine ⟨appendChild c pb, ?_, ?_⟩
          · rw [lookupBone_modifyBone_ne c p _ hpc, h4]
          · have hcount : pb.children.count c = 0 :=
              List.count_eq_zero_of_not_mem hmem
            simp [appendChild, hcount]
      · intro q' qb' hq'p hq'
        by_cases hq'c : q' = c
        · subst hq'c
          have h2 : lookupBone (modifyBone bs1 p (appendChild q')) q' = some cb1 := by
            rw [lookupBone_modifyBone_ne p q' _ (fun hh => hq'p hh), hc1]
          rw [lookupBone_modifyBone_self, h2] at hq'
          have hqb' : qb' = setParent p cb1 := (Option.some.inj hq').symm
          rw [hqb']
          simpa [setParent] using hout q' cb1 hc1
        · rw [lookupBone_modifyBone_ne c q' _ hq'c,
            lookupBone_modifyBone_ne p q' _ hq'p] at hq'
          exact hout q' qb' hq'
      · intro _
        by_cases hpc : p = c
        · subst hpc
          have hcb1pb : cb1 = pb := hpc1 rfl
          have h2 : lookupBone (modifyBone bs1 p (appendChild p)) p =
              some (appendChild p cb1) := by
            rw [lookupBone_modifyBone_self, hc1]
            rfl
          refine ⟨setParent p (appendChild p cb1), ?_, ?_⟩
          · rw [lookupBone_modifyBone_self, h2]
            rfl
          · simp [setParent, appendChild, hcb1pb]
        · have h4 : lookupBone (modifyBone bs1 p (appendChild c)) p =
              some (appendChild c pb) := by
            rw [lookupBone_modifyBone_self, hp1]
            rfl
          refine ⟨appendChild c pb, ?_, rfl⟩
          rw [lookupBone_modifyBone_ne c p _ hpc, h4]

/-! ## cleanupDuplicateKeys (skinnedanimation.py) -/

theorem find?_filter_ne (who n : String) (hn : n ≠ who) :
    ∀ l : List (String × Ref),
      (l.filter (fun kv => kv.1 != who)).find? (fun kv => kv.1 == n) =
        l.find? (fun kv => kv.1 == n) := by
  intro l
  induction l with
  | nil => rfl
  | cons kv tl ih =>
    rw [List.filter_cons]
    by_cases h1 : kv.1 = who
    · have hb : (kv.1 != who) = false := by simp [h1]
      have hb2 : (kv.1 == n) = false := by
        simp only [beq_eq_false_iff_ne, ne_eq]
        rw [h1]
        exact fun hh => hn hh.symm
      rw [hb]
      simp only [Bool.false_eq_true, if_false]
      rw [ih, List.find?_cons_of_neg _ (by simp [hb2])]
    · have hb : (kv.1 != who) = true := by simp [h1]
      rw [hb]
      simp only [if_true]
      by_cases h2 : kv.1 = n
      · rw [List.find?_cons_of_pos _ (by simp [h2]), List.find?_cons_of_pos _ (by simp [h2])]
      · rw [List.find?_cons_of_neg _ (by simp [h2]), List.find?_cons_of_neg _ (by simp [h2])]
        exact ih

theorem eraseKey_find_ne (f : Frame) (who n : String) (hn : n ≠ who) :
    (f.eraseKey who).find n = f.find n := by
  rw [Frame.eraseKey, Frame.find, Frame.find]
  rw [find?_filter_ne who n hn]

theorem eraseKey_find_self (f : Frame) (who : String) :
    (f.eraseKey who).find who = none := by
  rw [Frame.eraseKey, Frame.find]
  have : (f.keys.filter (fun kv => kv.1 != who)).find? (fun kv => kv.1 == who) = none := by
    rw [List.find?_eq_none]
    intro kv hkv
    have := (List.mem_filter.mp hkv).2
    simp only [bne_iff_ne, ne_eq] at this
    simp [this]
  rw [this]
  rfl

theorem eraseFrameKey_length (frames : List Frame) (i : ℕ) (name : String) :
    (eraseFrameKey frames i name).length = frames.length := by
  rw [eraseFrameKey]
  cases frames.get? i <;> simp

theorem eraseFrameKey_get?_ne (frames : List Frame) (i j : ℕ) (name : String)
    (h : j ≠ i) : (eraseFrameKey frames i name).get? j = frames.get? j := by
  rw [eraseFrameKey]
  cases frames.get? i with
  | none => rfl
  | some f => exact List.get?_set_ne _ _ (fun hh => h hh.symm)

theorem eraseFrameKey_get?_self (frames : List Frame) (i : ℕ) (name : String) :
    (eraseFrameKey frames i name).get? i = (frames.get? i).map (·.eraseKey name) := by
  rw [eraseFrameKey]
  cases hg : frames.get? i with
  | none =>
    simp
    exact List.get?_eq_none.mp hg
  | some f =>
    have hlt : i < frames.length := by
      by_contra hns
      rw [List.get?_eq_none.mpr (le_of_not_lt hns)] at hg
      exact Option.noConfusion hg
    rw [List.get?_set_eq_of_lt]
    · rfl
    · exact hlt

theorem innerScan_subset (st : AnimState) (name : String) (fn base : ℕ) :
    ∀ rest x, x ∈ innerScan st name fn base rest → x = fn := by
  intro rest
  induction rest with
  | nil => intro x hx; exact absurd hx (List.not_mem_nil x)
  | cons j tl ih =>
    intro x hx
    rw [innerScan] at hx
    by_cases hchg : keyDataChanged (cellAt st base name) (cellAt st j name) = true
    · rw [if_pos hchg] at hx
      exact absurd hx (List.not_mem_nil x)
    · rw [if_neg hchg] at hx
      rcases List.mem_append.mp hx with h1 | h1
      · by_cases hb : base = fn
        · rw [if_pos hb] at h1
          rw [List.mem_singleton.mp h1]
          exact hb
        · rw [if_neg hb] at h1
          by_cases hj : j = fn
          · rw [if_pos hj] at h1
            rw [List.mem_singleton.mp h1]
            exact hj
          · rw [if_neg hj] at h1
            exact absurd h1 (List.not_mem_nil x)
      · exact ih x h1

theorem outerScan_subset (st : AnimState) (name : String) (fn : ℕ) :
    ∀ keys x, x ∈ outerScan st name fn keys → x = fn := by
  intro keys
  induction keys with
  | nil => intro x hx; exact absurd hx (List.not_mem_nil x)
  | cons b tl ih =>
    intro x hx
    rw [outerScan] at hx
    rcases List.mem_append.mp hx with h1 | h1
    · exact innerScan_subset st name fn b tl x h1
    · exact ih x h1

theorem dedup_of_subset_singleton (fn : ℕ) :
    ∀ l : List ℕ, (∀ x ∈ l, x = fn) →
      l.dedup = if fn ∈ l then [fn] else [] := by
  intro l hall
  have hnd : l.dedup.Nodup := List.nodup_dedup l
  have hsub : ∀ x ∈ l.dedup, x = fn := fun x hx => hall x (List.mem_dedup.mp hx)
  by_cases hmem : fn ∈ l
  · rw [if_pos hmem]
    have hfn : fn ∈ l.dedup := List.mem_dedup.mpr hmem
    cases hd : l.dedup with
    | nil => rw [hd] at hfn; exact absurd hfn (List.not_mem_nil fn)
    | cons a tl =>
      rw [hd] at hsub hnd hfn
      have ha : a = fn := hsub a (List.mem_cons_self a tl)
      cases htl : tl with
      | nil => rw [ha]
      | cons b tl2 =>
        rw [htl] at hsub hnd
        have hb : b = fn := hsub b (by simp)
        rw [List.nodup_cons] at hnd
        exact absurd (by rw [ha, ← hb]; simp : a ∈ b :: tl2) hnd.1
  · rw [if_neg hmem]
    cases hd : l.dedup with
    | nil => rfl
    | cons a tl =>
      have : a ∈ l.dedup := by rw [hd]; simp
      exact absurd (List.mem_dedup.mp ((hsub a this) ▸ this)) hmem

/-- The duplicate-deletion pass for one bone in closed form: the only frame
ever deleted is the just-edited one, and only when it is set, positive and
collected by the scan. -/
theorem cleanupBone_eq (st : AnimState) (name : String) (fn : ℕ) :
    cleanupBone st name fn =
      ⟨if 0 < fn ∧ fn ∈ outerScan st name fn (getBoneKeyFrames st.frames name) then
          eraseFrameKey st.frames fn name
        else st.frames, st.heap⟩ := by
  rw [cleanupBone]
  have hded := dedup_of_subset_singleton fn
    (outerScan st name fn (getBoneKeyFrames st.frames name))
    (outerScan_subset st name fn _)
  by_cases hmem : fn ∈ outerScan st name fn (getBoneKeyFrames st.frames name)
  · rw [hded, if_pos hmem]
    by_cases hpos : 0 < fn
    · rw [if_pos ⟨hpos, hmem⟩]
      simp [List.foldl, hpos]
    · rw [if_neg (fun hh => hpos hh.1)]
      simp [List.foldl, hpos]
  · rw [hded, if_neg hmem, if_neg (fun hh => hmem hh.2)]
    simp [List.foldl]

theorem ColEq.refl (st : AnimState) (name : String) : ColEq st st name :=
  ⟨rfl, rfl, fun _ => rfl⟩

theorem ColEq.trans' {st1 st2 st3 : AnimState} {name : String}
    (h1 : ColEq st1 st2 name) (h2 : ColEq st2 st3 name) : ColEq st1 st3 name :=
  ⟨h1.1.trans h2.1, h1.2.1.trans h2.2.1, fun i => (h1.2.2 i).trans (h2.2.2 i)⟩

theorem ColEq_bindFind {st st' : AnimState} {name : String} (h : ColEq st st' name)
    (i : ℕ) :
    (st.frames.get? i).bind (·.find name) = (st'.frames.get? i).bind (·.find name) := by
  have hv := h.2.2 i
  cases hg : st.frames.get? i with
  | none =>
    cases hg' : st'.frames.get? i with
    | none => rfl
    | some f' =>
      rw [hg, hg'] at hv
      exact Option.noConfusion hv
  | some f =>
    cases hg' : st'.frames.get? i with
    | none =>
      rw [hg, hg'] at hv
      exact Option.noConfusion hv
    | some f' =>
      rw [hg, hg'] at hv
      have hf : f.find name = f'.find name := Option.some.inj (by simpa using hv)
      simp [hf]

theorem ColEq_cellAt {st st' : AnimState} {name : String} (h : ColEq st st' name)
    (i : ℕ) : cellAt st i name = cellAt st' i name := by
  rw [cellAt, cellAt, ColEq_bindFind h i, h.2.1]

theorem ColEq_hasKeyAt {st st' : AnimState} {name : String} (h : ColEq st st' name)
    (i : ℕ) : hasKeyAt st i name = hasKeyAt st' i name := by
  have e1 : ∀ (fr : List Frame) (j : ℕ),
      ((fr.get? j).map (·.hasKey name)) = ((fr.get? j).map (·.find name)).map Option.isSome := by
    intro fr j
    cases fr.get? j <;> rfl
  rw [hasKeyAt, hasKeyAt, e1, e1, h.2.2 i]

theorem ColEq_keys {st st' : AnimState} {name : String} (h : ColEq st st' name) :
    getBoneKeyFrames st.frames name = getBoneKeyFrames st'.frames name := by
  rw [getBoneKeyFrames, getBoneKeyFrames, ← h.1]
  refine List.filter_congr ?_
  intro i _
  have e1 : ∀ (fr : List Frame) (j : ℕ),
      ((fr.get? j).map (·.hasKey name)) = ((fr.get? j).map (·.find name)).map Option.isSome := by
    intro fr j
    cases fr.get? j <;> rfl
  rw [e1, e1, h.2.2 i]

theorem ColEq_innerScan {st st' : AnimState} {name : String} (h : ColEq st st' name)
    (fn base : ℕ) :
    ∀ rest, innerScan st name fn base rest = innerScan st' name fn base rest := by
  intro rest
  induction rest with
  | nil => rfl
  | cons j tl ih =>
    rw [innerScan, innerScan, ColEq_cellAt h base, ColEq_cellAt h j, ih]

theorem ColEq_outerScan {st st' : AnimState} {name : String} (h : ColEq st st' name)
    (fn : ℕ) :
    ∀ keys, outerScan st name fn keys = outerScan st' name fn keys := by
  intro keys
  induction keys with
  | nil => rfl
  | cons b tl ih =>
    rw [outerScan, outerScan, ColEq_innerScan h fn b, ih]

/-- Cleaning up a different bone's duplicates leaves `name`'s column intact. -/
theorem cleanupBone_colEq (st : AnimState) (who : String) (fn : ℕ) (name : String)
    (hne : who ≠ name) : ColEq st (cleanupBone st who fn) name := by
  rw [cleanupBone_eq]
  by_cases hcond : 0 < fn ∧ fn ∈ outerScan st who fn (getBoneKeyFrames st.frames who)
  · rw [if_pos hcond]
    refine ⟨(eraseFrameKey_length st.frames fn who).symm, rfl, ?_⟩
    intro i
    by_cases hif : i = fn
    · subst hif
      rw [eraseFrameKey_get?_self]
      cases hg : st.frames.get? i with
      | none => rfl
      | some f =>
        simp [eraseKey_find_ne f who name (fun hh => hne hh.symm)]
    · rw [eraseFrameKey_get?_ne _ _ _ _ hif]
  · rw [if_neg hcond]
    exact ColEq.refl st name

/-- Cleaning up `name` itself, on any state carrying the same column as
`st0`: the edited frame's key survives exactly when it was absent anyway or
the scan did not collect it. -/
theorem cleanupBone_self_hasKey {st0 st : AnimState} {name : String}
    (h : ColEq st0 st name) (fn : ℕ) :
    hasKeyAt (cleanupBone st name fn) fn name = false ↔
      (hasKeyAt st0 fn name = false ∨
        (0 < fn ∧ fn ∈ outerScan st0 name fn (getBoneKeyFrames st0.frames name))) := by
  rw [cleanupBone_eq]
  have hscan : outerScan st name fn (getBoneKeyFrames st.frames name) =
      outerScan st0 name fn (getBoneKeyFrames st0.frames name) := by
    rw [← ColEq_keys h, ← ColEq_outerScan h]
  by_cases hcond : 0 < fn ∧ fn ∈ outerScan st0 name fn (getBoneKeyFrames st0.frames name)
  · rw [if_pos (by rw [hscan]; exact hcond)]
    constructor
    · intro _
      right
      exact hcond
    · intro _
      rw [hasKeyAt]
      show (((eraseFrameKey st.frames fn name).get? fn).map (·.hasKey name)).getD false = false
      rw [eraseFrameKey_get?_self]
      cases hg : st.frames.get? fn with
      | none => rfl
      | some f => simp [Frame.hasKey, eraseKey_find_self]
  · rw [if_neg (by rw [hscan]; exact hcond)]
    have hsame : hasKeyAt (⟨st.frames, st.heap⟩ : AnimState) fn name =
        hasKeyAt st0 fn name := (ColEq_hasKeyAt h fn).symm
    rw [hsame]
    constructor
    · intro h1
      left
      exact h1
    · intro h1
      rcases h1 with h1 | h1
      · exact h1
      · exact absurd h1 hcond

theorem cleanup_fold_colEq (name : String) (fn : ℕ) :
    ∀ (names : List String) (st st0 : AnimState), name ∉ names → ColEq st0 st name →
      ColEq st0 (cleanupDuplicateKeys st names fn) name := by
  intro names
  induction names with
  | nil =>
    intro st st0 _ h
    exact h
  | cons who tl ih =>
    intro st st0 hnot h
    have heq : cleanupDuplicateKeys st (who :: tl) fn =
        cleanupDuplicateKeys (cleanupBone st who fn) tl fn := rfl
    rw [heq]
    have hwho : who ≠ name := by
      intro hh
      refine hnot ?_
      rw [← hh]
      exact List.mem_cons_self who tl
    refine ih _ st0 (fun hh => hnot (List.mem_cons_of_mem _ hh)) ?_
    exact ColEq.trans' h (cleanupBone_colEq st who fn name hwho)

theorem cleanup_fold_hasKey (name : String) (fn : ℕ) :
    ∀ (names : List String) (st st0 : AnimState), names.Nodup → name ∈ names →
      ColEq st0 st name →
      (hasKeyAt (cleanupDuplicateKeys st names fn) fn name = false ↔
        (hasKeyAt st0 fn name = false ∨
          (0 < fn ∧ fn ∈ outerScan st0 name fn (getBoneKeyFrames st0.frames name)))) := by
  intro names
  induction names with
  | nil =>
    intro st st0 _ hmem _
    exact absurd hmem (List.not_mem_nil name)
  | cons who tl ih =>
    intro st st0 hnd hmem h
    have heq : cleanupDuplicateKeys st (who :: tl) fn =
        cleanupDuplicateKeys (cleanupBone st who fn) tl fn := rfl
    rw [heq]
    by_cases hwho : who = name
    · subst hwho
      have htl : who ∉ tl := (List.nodup_cons.mp hnd).1
      have hcol : ColEq (cleanupBone st who fn)
          (cleanupDuplicateKeys (cleanupBone st who fn) tl fn) who :=
        cleanup_fold_colEq who fn tl _ _ htl (ColEq.refl _ _)
      rw [← ColEq_hasKeyAt hcol fn]
      exact cleanupBone_self_hasKey h fn
    · have hmem' : name ∈ tl := by
        rcases List.mem_cons.mp hmem with h1 | h1
        · exact absurd h1.symm hwho
        · exact h1
      exact ih _ _ (List.nodup_cons.mp hnd).2 hmem'
        (ColEq.trans' h (cleanupBone_colEq st who fn name hwho))

theorem cleanupBone_get? (st : AnimState) (who : String) (fn j : ℕ)
    (hj : j = 0 ∨ j ≠ fn) :
    (cleanupBone st who fn).frames.get? j = st.frames.get? j := by
  rw [cleanupBone_eq]
  by_cases hcond : 0 < fn ∧ fn ∈ outerScan st who fn (getBoneKeyFrames st.frames who)
  · rw [if_pos hcond]
    have hjfn : j ≠ fn := by
      rcases hj with h1 | h1
      · rw [h1]
        omega
      · exact h1
    exact eraseFrameKey_get?_ne _ _ _ _ hjfn
  · rw [if_neg hcond]

theorem cleanup_preserves (fn : ℕ) :
    ∀ (names : List String) (st : AnimState),
      (cleanupDuplicateKeys st names fn).heap = st.heap ∧
      ∀ j, (j = 0 ∨ j ≠ fn) →
        (cleanupDuplicateKeys st names fn).frames.get? j = st.frames.get? j := by
  intro names
  induction names with
  | nil =>
    intro st
    exact ⟨rfl, fun _ _ => rfl⟩
  | cons who tl ih =>
    intro st
    have heq : cleanupDuplicateKeys st (who :: tl) fn =
        cleanupDuplicateKeys (cleanupBone st who fn) tl fn := rfl
    rw [heq]
    have hheap : (cleanupBone st who fn).heap = st.heap := by
      rw [cleanupBone_eq]
    refine ⟨(ih _).1.trans hheap, ?_⟩
    intro j hj
    rw [(ih _).2 j hj, cleanupBone_get? st who fn j hj]

theorem innerScan_mem_cases (st : AnimState) (name : String) (fn base : ℕ) :
    ∀ rest, fn ∈ innerScan st name fn base rest →
      (base = fn ∧ ∃ j tl, rest = j :: tl ∧ cellAt st base name = cellAt st j name) ∨
      (∃ pre suf, rest = pre ++ fn :: suf ∧
        (∀ x ∈ pre, cellAt st base name = cellAt st x name) ∧
        cellAt st base name = cellAt st fn name) := by
  intro rest
  induction rest with
  | nil =>
    intro hx
    exact absurd hx (List.not_mem_nil fn)
  | cons j tl ih =>
    intro hx
    rw [innerScan] at hx
    by_cases hchg : keyDataChanged (cellAt st base name) (cellAt st j name) = true
    · rw [if_pos hchg] at hx
      exact absurd hx (List.not_mem_nil fn)
    · rw [if_neg hchg] at hx
      have heq : cellAt st base name = cellAt st j name := by
        simpa [keyDataChanged] using hchg
      rcases List.mem_append.mp hx with h1 | h1
      · by_cases hb : base = fn
        · exact Or.inl ⟨hb, j, tl, rfl, heq⟩
        · rw [if_neg hb] at h1
          by_cases hj : j = fn
          · refine Or.inr ⟨[], tl, by rw [hj]; rfl, ?_, ?_⟩
            · intro x hx2
              exact absurd hx2 (List.not_mem_nil x)
            · rw [← hj]
              exact heq
          · rw [if_neg hj] at h1
            exact absurd h1 (List.not_mem_nil fn)
      · rcases ih h1 with ⟨hb, _, _, _, _⟩ | ⟨pre, suf, htl, hall, heqf⟩
        · exact Or.inl ⟨hb, j, tl, rfl, heq⟩
        · refine Or.inr ⟨j :: pre, suf, by rw [htl]; rfl, ?_, heqf⟩
          intro x hx2
          rcases List.mem_cons.mp hx2 with h2 | h2
          · rw [h2]
            exact heq
          · exact hall x h2

theorem innerScan_mem_head (st : AnimState) (name : String) (fn base j : ℕ)
    (tl : List ℕ) (heq : cellAt st base name = cellAt st j name)
    (hor : base = fn ∨ j = fn) :
    fn ∈ innerScan st name fn base (j :: tl) := by
  have hchg : keyDataChanged (cellAt st base name) (cellAt st j name) = false := by
    simp [keyDataChanged, heq]
  rw [innerScan, hchg]
  simp only [Bool.false_eq_true, if_false]
  refine List.mem_append.mpr (Or.inl ?_)
  rcases hor with hb | hj
  · rw [if_pos hb, hb]
    simp
  · by_cases hb : base = fn
    · rw [if_pos hb, hb]
      simp
    · rw [if_neg hb, if_pos hj, hj]
      simp

theorem innerScan_mem_deep (st : AnimState) (name : String) (fn base : ℕ) :
    ∀ pre suf, (∀ x ∈ pre, cellAt st base name = cellAt st x name) →
      cellAt st base name = cellAt st fn name →
      fn ∈ innerScan st name fn base (pre ++ fn :: suf) := by
  intro pre
  induction pre with
  | nil =>
    intro suf _ heqf
    exact innerScan_mem_head st name fn base fn suf heqf (Or.inr rfl)
  | cons x pre' ih =>
    intro suf hall heqf
    have heq : cellAt st base name = cellAt st x name :=
      hall x (List.mem_cons_self x pre')
    have hchg : keyDataChanged (cellAt st base name) (cellAt st x name) = false := by
      simp [keyDataChanged, heq]
    rw [List.cons_append, innerScan]
    rw [hchg]
    simp only [Bool.false_eq_true, if_false]
    exact List.mem_append.mpr
      (Or.inr (ih suf (fun y hy => hall y (List.mem_cons_of_mem x hy)) heqf))

theorem outerScan_mem_cases (st : AnimState) (name : String) (fn : ℕ) :
    ∀ keys, fn ∈ outerScan st name fn keys →
      ∃ l₁ base rest, keys = l₁ ++ base :: rest ∧ fn ∈ innerScan st name fn base rest := by
  intro keys
  induction keys with
  | nil =>
    intro hx
    exact absurd hx (List.not_mem_nil fn)
  | cons b tl ih =>
    intro hx
    rw [outerScan] at hx
    rcases List.mem_append.mp hx with h1 | h1
    · exact ⟨[], b, tl, rfl, h1⟩
    · obtain ⟨l₁, base, rest, hkeys, hmem⟩ := ih h1
      exact ⟨b :: l₁, base, rest, by rw [hkeys]; rfl, hmem⟩

theorem outerScan_mem_intro (st : AnimState) (name : String) (fn : ℕ) :
    ∀ l₁ base rest, fn ∈ innerScan st name fn base rest →
      fn ∈ outerScan st name fn (l₁ ++ base :: rest) := by
  intro l₁
  induction l₁ with
  | nil =>
    intro base rest h
    rw [List.nil_append, outerScan]
    exact List.mem_append.mpr (Or.inl h)
  | cons b l₁' ih =>
    intro base rest h
    rw [List.cons_append, outerScan]
    exact List.mem_append.mpr (Or.inr (ih base rest h))

/-- The scan collects the just-edited keyed frame exactly when an adjacent
keyed frame (its predecessor or successor in the sorted key list) carries
identical content — the run-of-identical-keys walk reduces to adjacency
because content equality is transitive along the run. -/
theorem outerScan_mem_iff (st : AnimState) (name : String) (fn : ℕ) (keys : List ℕ) :
    fn ∈ outerScan st name fn keys ↔
      ((∃ l₁ p l₂, keys = l₁ ++ p :: fn :: l₂ ∧
          cellAt st p name = cellAt st fn name) ∨
       (∃ l₁ s l₂, keys = l₁ ++ fn :: s :: l₂ ∧
          cellAt st fn name = cellAt st s name)) := by
  constructor
  · intro hx
    obtain ⟨l₁, base, rest, hkeys, hmem⟩ := outerScan_mem_cases st name fn keys hx
    rcases innerScan_mem_cases st name fn base rest hmem with
      ⟨hb, j, tl, hrest, heq⟩ | ⟨pre, suf, hrest, hall, heqf⟩
    · right
      refine ⟨l₁, j, tl, ?_, ?_⟩
      · rw [hkeys, hrest, hb]
      · rw [← hb]
        exact heq
    · have hne : (base :: pre) ≠ [] := List.cons_ne_nil base pre
      have hsplit : (base :: pre).dropLast ++ [(base :: pre).getLast hne] =
          base :: pre := List.dropLast_append_getLast hne
      have hp : (base :: pre).getLast hne ∈ base :: pre := List.getLast_mem hne
      have heqp : cellAt st base name =
          cellAt st ((base :: pre).getLast hne) name := by
        rcases List.mem_cons.mp hp with h2 | h2
        · rw [h2]
        · exact hall _ h2
      left
      refine ⟨l₁ ++ (base :: pre).dropLast, (base :: pre).getLast hne, suf, ?_, ?_⟩
      · rw [hkeys, hrest]
        calc l₁ ++ base :: (pre ++ fn :: suf)
            = l₁ ++ ((base :: pre) ++ fn :: suf) := by rw [List.cons_append]
          _ = l₁ ++ (((base :: pre).dropLast ++ [(base :: pre).getLast hne]) ++
              fn :: suf) := by rw [hsplit]
          _ = (l₁ ++ (base :: pre).dropLast) ++
              ((base :: pre).getLast hne :: fn :: suf) := by
              simp [List.append_assoc]
      · rw [← heqp]
        exact heqf
  · intro hx
    rcases hx with ⟨l₁, p, l₂, hkeys, heq⟩ | ⟨l₁, s, l₂, hkeys, heq⟩
    · rw [hkeys]
      exact outerScan_mem_intro st name fn l₁ p (fn :: l₂)
        (innerScan_mem_head st name fn p fn l₂ heq (Or.inr rfl))
    · rw [hkeys]
      exact outerScan_mem_intro st name fn l₁ fn (s :: l₂)
        (innerScan_mem_head st name fn fn s l₂ heq (Or.inl rfl))

/-- C7: `cleanupDuplicateKeys(bones, frameNumber)` never touches the heap,
never deletes any frame other than the just-edited one (frame 0 in
particular is always preserved, even when it is the edited frame), and for
every bone of the rig it deletes the edited frame's key exactly when that
frame is keyed, positive, and its content is identical to an adjacent keyed
frame of the bone (the predecessor or successor in its sorted key-frame
list, collapsing a run of consecutive identical keys); verified concretely
on the fixture {frame 0: key A, frame 3: key A, frame 5: key B} with
frameNumber 3, where frame 3's key is removed and frames 0 and 5 keep
contents A and B. -/
theorem cleanup_duplicate_keys_spec :
    (∀ (st : AnimState) (names : List String) (fn : ℕ),
      (cleanupDuplicateKeys st names fn).heap = st.heap ∧
      ∀ j, (j = 0 ∨ j ≠ fn) →
        (cleanupDuplicateKeys st names fn).frames.get? j = st.frames.get? j) ∧
    (∀ (st : AnimState) (names : List String) (fn : ℕ) (name : String),
      names.Nodup → name ∈ names → hasKeyAt st fn name = true →
      (hasKeyAt (cleanupDuplicateKeys st names fn) fn name = false ↔
        (0 < fn ∧
          ((∃ l₁ p l₂, getBoneKeyFrames st.frames name = l₁ ++ p :: fn :: l₂ ∧
              cellAt st p name = cellAt st fn name) ∨
           (∃ l₁ s l₂, getBoneKeyFrames st.frames name = l₁ ++ fn :: s :: l₂ ∧
              cellAt st fn name = cellAt st s name))))) ∧
    (hasKeyAt anim3 3 "b" = true ∧
      hasKeyAt (cleanupDuplicateKeys anim3 ["b"] 3) 3 "b" = false ∧
      cellAt (cleanupDuplicateKeys anim3 ["b"] 3) 0 "b" = some keyA ∧
      cellAt (cleanupDuplicateKeys anim3 ["b"] 3) 5 "b" = some (keyR 1)) := by
  refine ⟨?_, ?_, by decide, by decide, by decide, by decide⟩
  · intro st names fn
    exact cleanup_preserves fn names st
  · intro st names fn name hnd hmem hkey
    have hiff := cleanup_fold_hasKey name fn names st st hnd hmem (ColEq.refl st name)
    rw [hiff, outerScan_mem_iff st name fn (getBoneKeyFrames st.frames name), hkey]
    simp

/-- Witness for `cleanup_duplicate_keys_spec` on the three-key fixture. -/
theorem cleanup_duplicate_keys_spec_witness :
    ((["b"] : List String).Nodup ∧ "b" ∈ ["b"] ∧ hasKeyAt anim3 3 "b" = true ∧
      (3 = 0 ∨ 3 ≠ 3) = False ∧
      (cleanupDuplicateKeys anim3 ["b"] 3).frames.get? 0 = anim3.frames.get? 0) ∧
    (hasKeyAt (cleanupDuplicateKeys anim3 ["b"] 3) 3 "b" = false ↔
      (0 < 3 ∧
        ((∃ l₁ p l₂, getBoneKeyFrames anim3.frames "b" = l₁ ++ p :: 3 :: l₂ ∧
            cellAt anim3 p "b" = cellAt anim3 3 "b") ∨
         (∃ l₁ s l₂, getBoneKeyFrames anim3.frames "b" = l₁ ++ 3 :: s :: l₂ ∧
            cellAt anim3 3 "b" = cellAt anim3 s "b")))) := by
  refine ⟨⟨by decide, by decide, by decide, by simp, ?_⟩, ?_⟩
  · exact (cleanup_duplicate_keys_spec.1 anim3 ["b"] 3).2 0 (Or.inl rfl)
  · exact cleanup_duplicate_keys_spec.2.1 anim3 ["b"] 3 "b" (by decide) (by decide)
      (by decide)

/-- Witness for `connectBone_spec` on the consistent two-bone demo rig:
connecting "child" under "root". -/
theorem connectBone_spec_witness :
    consistentB demoRig = true ∧
    lookupBone demoRig "child" = some (mkSkinnedBone "child") ∧
    lookupBone demoRig "root" = some (mkSkinnedBone "root") ∧
    (∃ bs', connectBone demoRig "child" "root" = some bs' ∧
      (∃ cb', lookupBone bs' "child" = some cb' ∧ cb'.parent = some "root") ∧
      (∃ pb', lookupBone bs' "root" = some pb' ∧ pb'.children.count "child" = 1) ∧
      (∀ q qb', q ≠ "root" → lookupBone bs' q = some qb' → "child" ∉ qb'.children) ∧
      ("child" ∉ (mkSkinnedBone "root").children →
        ∃ pb', lookupBone bs' "root" = some pb' ∧
          pb'.children = (mkSkinnedBone "root").children ++ ["child"])) := by
  refine ⟨by decide, by decide, by decide, ?_⟩
  exact connectBone_spec.2 demoRig "child" "root" (mkSkinnedBone "child")
    (mkSkinnedBone "root") (by decide) (by decide) (by decide)

end RenpyShader
